import Mathlib

/-! Shallow embedding of `frida/src/lib.rs`: a FRI-style batched low-degree
test (IOPP) with a `Prover` (commit, fold rounds, query sampling) and a
`Verifier` (per-round Merkle checks and fold-consistency checks).  The
field `F` stands for the BN254 scalar field `Fr`.  The external
collaborators (`util::merkle_tree`, `util::mul_group::Radix2Group`) are
modelled from the spec's contracts.  Rust panics (`assert!`, `unwrap`,
out-of-bounds indexing) are modelled by `Option`: `none` is an abort;
indexing that is provably in bounds at every use site is modelled by
`getD` with default `0`. -/

/-- Byte width of a serialized field element (`size_of::<Fr>()`, 32 bytes). -/
def frByteWidth : Nat := 32

/-- Sequences a fallible map over a list; the Rust originals are loops of
lookups / index accesses where the first failure panics, so `none` models
the panic and `some` collects the results in order. -/
def mapOpt {α β : Type} (f : α → Option β) : List α → Option (List β)
  | [] => some []
  | a :: l => do
    let b ← f a
    let r ← mapOpt f l
    pure (b :: r)

/-- Runs a fallible action over a list for its checks only (Rust `for` loop
whose body can panic). -/
def forOpt {α : Type} (f : α → Option Unit) : List α → Option Unit
  | [] => some ()
  | a :: l => do
    let _ ← f a
    forOpt f l

/-- Rust `vec.sort(); vec.dedup()`: sort ascending, then remove consecutive
duplicates. -/
def sortDedup (l : List Nat) : List Nat :=
  (l.mergeSort (fun a b => decide (a ≤ b))).destutter (fun a b => a ≠ b)

/-- Modelled from the spec: the external vector commitment
(`util::merkle_tree::MerkleTreeProver<Blake32>`).  Serialization of a leaf
is modelled as the tuple of field elements itself, and the commitment as
the list of serialized leaves (an injective commitment, matching the
spec's binding round-trip contract). -/
structure MerkleTreeProver (F : Type) where
  leaves : List (List F)
deriving DecidableEq

def MerkleTreeProver.leave_num {F : Type} (t : MerkleTreeProver F) : Nat :=
  t.leaves.length

def MerkleTreeProver.commit {F : Type} (t : MerkleTreeProver F) : List (List F) :=
  t.leaves

/-- Modelled from the spec: `open(indices) -> proof bytes` (opaque bytes);
the modelled commitment needs no authentication paths, so the proof is
empty. -/
def MerkleTreeProver.openPaths {F : Type} (_ : MerkleTreeProver F) (_ : List Nat) : List Nat :=
  []

/-- Modelled from the spec: the external `MerkleTreeVerifier`, holding the
expected leaf count and the commitment root. -/
structure MerkleTreeVerifier (F : Type) where
  leave_number : Nat
  root : List (List F)
deriving DecidableEq

/-- Modelled from the spec: `verify(proof, indices, claimedLeaves) -> bool`
succeeds iff the claimed leaves equal the committed leaves at the claimed
indices. -/
def MerkleTreeVerifier.verify {F : Type} [DecidableEq F] (v : MerkleTreeVerifier F)
    (_paths : List Nat) (indices : List Nat) (leaves : List (List F)) : Bool :=
  decide (indices.length = leaves.length) &&
    (indices.zip leaves).all (fun p => decide (v.root.get? p.1 = some p.2))

/-- `QueryResult`: opened values (a finite map from flat index to field
element, modelled as an association list) plus authentication-path bytes. -/
structure QueryResult (F : Type) where
  paths : List Nat
  values : List (Nat × F)
deriving DecidableEq

def QueryResult.proof_size {F : Type} (q : QueryResult F) : Nat :=
  q.paths.length + q.values.length * frByteWidth

/-- `QueryResult::verify_merkle_tree`: reconstructs each requested leaf from
the opened values across all `leaf_size` lanes, calls the commitment's
`verify`, and `assert!`s the outcome (so a `false` outcome aborts: `none`).
A missing value (`unwrap` failure) also aborts. -/
def QueryResult.verify_merkle_tree {F : Type} [DecidableEq F] (q : QueryResult F)
    (leaf_indices : List Nat) (leaf_size : Nat) (merkle_verifier : MerkleTreeVerifier F) :
    Option Bool :=
  let len := merkle_verifier.leave_number
  do
    let leaves ← mapOpt
      (fun x => mapOpt (fun j => q.values.lookup (x + j * len)) (List.range leaf_size))
      leaf_indices
    let res := merkle_verifier.verify q.paths leaf_indices leaves
    if res then pure res else none

/-- `InterpolateValue`: one round's full evaluation vector with its lane
width and Merkle tree over the grouped leaves. -/
structure InterpolateValue (F : Type) where
  value : List F
  leaf_size : Nat
  merkle_tree : MerkleTreeProver F
deriving DecidableEq

/-- `InterpolateValue::new`: group `value` into `value.length / leaf_size`
leaves with stride `len` (leaf `i` is `value[len*j + i]` for each lane `j`)
and commit. -/
def InterpolateValue.new {F : Type} [Field F] (value : List F) (leaf_size : Nat) :
    InterpolateValue F :=
  let len := value.length / leaf_size
  { value := value
    leaf_size := leaf_size
    merkle_tree :=
      ⟨(List.range len).map (fun i =>
        (List.range leaf_size).map (fun j => value.getD (len * j + i) 0))⟩ }

def InterpolateValue.leave_num {F : Type} (self : InterpolateValue F) : Nat :=
  self.merkle_tree.leave_num

def InterpolateValue.commit {F : Type} (self : InterpolateValue F) : List (List F) :=
  self.merkle_tree.commit

/-- `InterpolateValue::query`: `assert_eq!(len * leaf_size, value.len())`,
then for each lane `i` and each requested index `j` collect the pair
`(j + i*len, value[j + i*len])` (an out-of-bounds access panics: `none`),
plus the batched opening proof. -/
def InterpolateValue.query {F : Type} [Field F] (self : InterpolateValue F)
    (leaf_indices : List Nat) : Option (QueryResult F) :=
  let len := self.merkle_tree.leave_num
  if len * self.leaf_size = self.value.length then
    (mapOpt (fun i =>
        mapOpt (fun j => (self.value.get? (j + i * len)).map (fun v => (j + i * len, v)))
          leaf_indices)
      (List.range self.leaf_size)).map
      (fun vss => ⟨self.merkle_tree.openPaths leaf_indices, vss.flatten⟩)
  else none

/-- `IoppCommits` (the spec's FoldCommitments): per-round roots plus the
final folded scalar. -/
structure IoppCommits (F : Type) where
  merkle_roots : List (List (List F))
  final_value : F
deriving DecidableEq

def IoppCommits.proof_size {F : Type} (c : IoppCommits F) : Nat :=
  c.merkle_roots.length * 32 + frByteWidth

structure IoppProverState (F : Type) where
  interpolations : List (InterpolateValue F)
deriving DecidableEq

structure Prover (F : Type) where
  interpolation : InterpolateValue F
  poly_num : Nat
  log_degree : Nat
deriving DecidableEq

/-- Modelled from the spec: the external evaluation domain
(`util::mul_group::Radix2Group`): a multiplicative subgroup of
power-of-two size `2 ^ logSize`, whose `i`-th element is `gen ^ i`. -/
structure Radix2Group (F : Type) where
  logSize : Nat
  gen : F
deriving DecidableEq

def Radix2Group.size {F : Type} (g : Radix2Group F) : Nat := 2 ^ g.logSize

/-- Modelled from the spec: `elementInverseAt(i)` is the multiplicative
inverse of the domain's `i`-th element. -/
def Radix2Group.element_inv_at {F : Type} [Field F] (g : Radix2Group F) (i : Nat) : F :=
  (g.gen ^ i)⁻¹

/-- Horner evaluation of a coefficient list (`coeffs[k]` multiplies `X^k`). -/
def evalPoly {F : Type} [Field F] (coeffs : List F) (x : F) : F :=
  coeffs.foldr (fun a acc => a + x * acc) 0

/-- Modelled from the spec: `fft(coefficients) -> evaluations` over the
domain: the `i`-th output is the polynomial evaluated at element `i`. -/
def Radix2Group.fft {F : Type} [Field F] (g : Radix2Group F) (coeffs : List F) : List F :=
  (List.range g.size).map (fun i => evalPoly coeffs (g.gen ^ i))

/-- Placeholder domain used only as the `getD` default where the Rust code
indexes `groups[i]` with `i` provably in bounds. -/
def dummyGroup (F : Type) [Field F] : Radix2Group F := { logSize := 0, gen := 1 }

/-- `Prover::evaluate_next_domain`: one fold round.  For each position `i`
in the half domain, with `x = v[i]`, `nx = v[i + len/2]`, `sum = x + nx`,
the output is `(sum + challenge*((x - nx)*w - sum)) * inv_2` where `w` is
the inverse of the domain's `i`-th element. -/
def Prover.evaluate_next_domain {F : Type} [Field F] (last_interpolation : List F)
    (group : Radix2Group F) (inv_2 : F) (challenge : F) : List F :=
  let len := group.size
  (List.range (len / 2)).map (fun i =>
    let x := last_interpolation.getD i 0
    let nx := last_interpolation.getD (i + len / 2) 0
    let sum := x + nx
    (sum + challenge * ((x - nx) * group.element_inv_at i - sum)) * inv_2)

/-- `Prover::new`: `log_degree = polies[0].len().ilog2()` (indexing an empty
list or `ilog2` of zero panics: `none`); the base layer is the
concatenation of the per-polynomial FFT evaluations with lane width
`polies.len() * 2`.  No cross-polynomial length check is performed. -/
def Prover.new {F : Type} [Field F] (polies : List (List F)) (group : Radix2Group F) :
    Option (Prover F) :=
  match polies with
  | [] => none
  | q :: _ =>
    if q.length = 0 then none
    else
      some { interpolation :=
               InterpolateValue.new ((polies.map (fun x => group.fft x)).flatten)
                 (polies.length * 2)
             poly_num := polies.length
             log_degree := Nat.log2 q.length }

def Prover.commit {F : Type} (p : Prover F) : List (List F) :=
  p.interpolation.commit

/-- The batching stage of `commit_phase`: for each domain position `i`,
Horner accumulation `acc = acc * c + value[i + k*len]` over the
`poly_num` lanes `k = 0, 1, ...`. -/
def batchValues {F : Type} [Field F] (value : List F) (len : Nat) (poly_num : Nat) (c : F) :
    List F :=
  (List.range len).map (fun i =>
    (List.range poly_num).foldl (fun acc k => acc * c + value.getD (i + k * len) 0) 0)

/-- The evaluation vector entering round `i` of `commit_phase`: `i = 0` is
the batched base vector, and `i + 1` is the output of round `i`'s fold
(the halving factor is the Rust `Fr::inverse(&2.into()).unwrap()`). -/
def Prover.roundValues {F : Type} [Field F] (p : Prover F) (groups : List (Radix2Group F))
    (challenges : F × List F) : Nat → List F
  | 0 => batchValues p.interpolation.value (groups.getD 0 (dummyGroup F)).size p.poly_num
      challenges.1
  | i + 1 =>
    Prover.evaluate_next_domain (p.roundValues groups challenges i)
      (groups.getD i (dummyGroup F)) (2 : F)⁻¹ (challenges.2.getD i 0)

/-- `Prover::commit_phase`: rounds `i < log_degree - 1` wrap the fold output
in an `InterpolateValue` with lane width 2 and commit it; the last round's
output vector contributes its element `0` as the final value. -/
def Prover.commit_phase {F : Type} [Field F] (p : Prover F) (groups : List (Radix2Group F))
    (challenges : F × List F) : IoppProverState F × IoppCommits F :=
  let interpolations := (List.range (p.log_degree - 1)).map
    (fun i => InterpolateValue.new (p.roundValues groups challenges (i + 1)) 2)
  (⟨interpolations⟩,
   ⟨interpolations.map (fun x => x.commit),
    (p.roundValues groups challenges p.log_degree).getD 0 0⟩)

/-- The rounds loop of `Prover::sample`, peeling the list of round numbers:
halve the domain size, reduce each index by `& (domain_size - 1)`, sort and
dedup, then query the round's layer. -/
def Prover.sampleGo {F : Type} [Field F] (p : Prover F) (prover_state : IoppProverState F) :
    List Nat → List Nat → Nat → Option (List (QueryResult F))
  | [], _, _ => some []
  | i :: rest, leaf_indices, domain_size =>
    let domain_size2 := domain_size >>> 1
    let reduced := sortDedup (leaf_indices.map (fun v => v &&& (domain_size2 - 1)))
    do
      let qr ← (if i = 0 then p.interpolation
                else prover_state.interpolations.getD (i - 1) ⟨[], 0, ⟨[]⟩⟩).query reduced
      let rest_qrs ← p.sampleGo prover_state rest reduced domain_size2
      pure (qr :: rest_qrs)

/-- `Prover::sample`: one `QueryResult` per round `0 .. log_degree`. -/
def Prover.sample {F : Type} [Field F] (p : Prover F) (prover_state : IoppProverState F)
    (leaf_indices : List Nat) (domain_size : Nat) : Option (List (QueryResult F)) :=
  p.sampleGo prover_state (List.range p.log_degree) leaf_indices domain_size

structure Verifier (F : Type) where
  mt_verifier : MerkleTreeVerifier F
  poly_num : Nat
deriving DecidableEq

def Verifier.new {F : Type} (merkle_root : List (List F)) (poly_num : Nat)
    (leave_number : Nat) : Verifier F :=
  { mt_verifier := ⟨leave_number, merkle_root⟩, poly_num := poly_num }

/-- The ephemeral per-round Merkle verifiers rebuilt inside `verify`: the
leaf count halves before each root is consumed. -/
def buildMtVerifiers {F : Type} (leave_num : Nat) :
    List (List (List F)) → List (MerkleTreeVerifier F)
  | [] => []
  | hash :: rest => ⟨leave_num / 2, hash⟩ :: buildMtVerifiers (leave_num / 2) rest

/-- The verifier's recomputed fold value at round `i`, index `j`.  Round 0
Horner-accumulates, over the `poly_num` lanes at stride `len`, the fold
expression built from the opened pair at `j + k*len` and
`j + k*len + len/2`; later rounds compute the single fold expression from
the opened pair at `j` and `j + len/2`.  A failed `HashMap` lookup
(`unwrap`) aborts: `none`. -/
def Verifier.computeNewV {F : Type} [Field F] (v : Verifier F) (groups : List (Radix2Group F))
    (challenges : F × List F) (query_results : List (QueryResult F)) (i j : Nat) : Option F :=
  let len := (groups.getD i (dummyGroup F)).size
  if i = 0 then
    (mapOpt (fun k => do
        let x ← (query_results.getD 0 ⟨[], []⟩).values.lookup (j + k * len)
        let nx ← (query_results.getD 0 ⟨[], []⟩).values.lookup (j + k * len + len / 2)
        pure (x, nx)) (List.range v.poly_num)).map
      (fun pairs => pairs.foldl (fun res p =>
          let sum := p.1 + p.2
          res * challenges.1 +
            (sum + challenges.2.getD 0 0 *
              ((p.1 - p.2) * (groups.getD 0 (dummyGroup F)).element_inv_at j - sum))) 0)
  else do
    let x ← (query_results.getD i ⟨[], []⟩).values.lookup j
    let nx ← (query_results.getD i ⟨[], []⟩).values.lookup (j + len / 2)
    let sum := x + nx
    pure (sum + challenges.2.getD i 0 *
      ((x - nx) * (groups.getD i (dummyGroup F)).element_inv_at j - sum))

/-- The rounds loop of `Verifier::verify`: reduce the indices modulo half
the round's domain size (sort + dedup), check the round's Merkle opening,
then check every surviving index's fold consistency: against
`2 * values[j]` of the next round's opening for `i < log_degree - 1`, and
against `2 * final_value` on the last round.  A failed check aborts
(`assert!` / `assert_eq!`): `none`. -/
def Verifier.verifyGo {F : Type} [Field F] [DecidableEq F] (v : Verifier F)
    (groups : List (Radix2Group F)) (challenges : F × List F) (iopp_commits : IoppCommits F)
    (query_results : List (QueryResult F)) (mt_verifiers : List (MerkleTreeVerifier F))
    (log_degree : Nat) : List Nat → List Nat → Option Unit
  | [], _ => some ()
  | i :: rest, leaf_indices =>
    let len := (groups.getD i (dummyGroup F)).size
    let reduced := sortDedup (leaf_indices.map (fun x => x % (len >>> 1)))
    do
      let _ ← (query_results.getD i ⟨[], []⟩).verify_merkle_tree reduced
        (if i = 0 then v.poly_num * 2 else 2)
        (if i = 0 then v.mt_verifier else mt_verifiers.getD (i - 1) ⟨0, []⟩)
      let _ ← forOpt (fun j => do
          let new_v ← v.computeNewV groups challenges query_results i j
          if i < log_degree - 1 then do
            let q ← (query_results.getD (i + 1) ⟨[], []⟩).values.lookup j
            if new_v = 2 * q then some () else none
          else if new_v = 2 * iopp_commits.final_value then some () else none) reduced
      v.verifyGo groups challenges iopp_commits query_results mt_verifiers log_degree rest
        reduced

/-- `Verifier::verify`: rebuild the per-round Merkle verifiers from the
committed roots and run the rounds loop over `0 .. log_degree`, where
`log_degree` is the number of fold challenges. -/
def Verifier.verify {F : Type} [Field F] [DecidableEq F] (v : Verifier F)
    (groups : List (Radix2Group F)) (challenges : F × List F) (leaf_indices : List Nat)
    (iopp_commits : IoppCommits F) (query_results : List (QueryResult F)) : Option Unit :=
  let mt_verifiers := buildMtVerifiers v.mt_verifier.leave_number iopp_commits.merkle_roots
  let log_degree := challenges.2.length
  v.verifyGo groups challenges iopp_commits query_results mt_verifiers log_degree
    (List.range log_degree) leaf_indices

/-- The round-`i` reduced index list on the prover side (`Prover::sample`):
repeated `& (domain_size/2^(i+1) - 1)` masking with sort + dedup. -/
def proverIndexSeq (indices : List Nat) (domain_size : Nat) : Nat → List Nat
  | 0 => indices
  | i + 1 => sortDedup ((proverIndexSeq indices domain_size i).map
      (fun v => v &&& (domain_size / 2 ^ (i + 1) - 1)))

/-- The round-`i` reduced index list on the verifier side
(`Verifier::verify`): repeated `% (groups[i].size()/2)` reduction with
sort + dedup. -/
def verifierIndexSeq {F : Type} [Field F] (groups : List (Radix2Group F))
    (indices : List Nat) : Nat → List Nat
  | 0 => indices
  | i + 1 => sortDedup ((verifierIndexSeq groups indices i).map
      (fun v => v % ((groups.getD i (dummyGroup F)).size >>> 1)))

instance : Fact (Nat.Prime 17) := ⟨by norm_num⟩

/-- Even-position coefficients of a polynomial (coefficients of `f_e` in
`f(X) = f_e(X^2) + X f_o(X^2)`). -/
def evensC {F : Type} : List F → List F
  | [] => []
  | [a] => [a]
  | a :: _ :: t => a :: evensC t

/-- Odd-position coefficients of a polynomial. -/
def oddsC {F : Type} : List F → List F
  | [] => []
  | [_] => []
  | _ :: b :: t => b :: oddsC t

def foldCoeffs {F : Type} [Field F] (c : F) : List F → List F
  | [] => []
  | [a] => [a + c * (0 - a)]
  | a :: b :: t => (a + c * (b - a)) :: foldCoeffs c t

/-- Coefficient-wise scaling of a polynomial. -/
def scaleC {F : Type} [Field F] (c : F) (a : List F) : List F := a.map (fun x => c * x)

/-- Coefficient-wise sum of two polynomials (implicitly zero-padded). -/
def addC {F : Type} [Field F] : List F → List F → List F
  | [], l => l
  | a :: t, [] => a :: t
  | a :: t, b :: s => (a + b) :: addC t s

def batchCoeffs {F : Type} [Field F] (c : F) (polies : List (List F)) : List F :=
  polies.foldl (fun acc q => addC (scaleC c acc) q) []

def foldExpr {F : Type} [Field F] (c w x nx : F) : F :=
  (x + nx) + c * ((x - nx) * w - (x + nx))

def honestValues {F : Type} [Field F] (layer : InterpolateValue F) (idx : List Nat) :
    List (Nat × F) :=
  ((List.range layer.leaf_size).map (fun k =>
    idx.map (fun j => (j + k * layer.merkle_tree.leave_num,
      layer.value.getD (j + k * layer.merkle_tree.leave_num) 0)))).flatten

/-- The honest prover value that `Prover::new` returns on well-formed
input of `2 ^ logd`-length polynomials over the base domain `groups[0]`. -/
def hProver {F : Type} [Field F] (polies : List (List F)) (groups : List (Radix2Group F))
    (logd : Nat) : Prover F :=
  { interpolation := InterpolateValue.new
      ((polies.map (fun x => (groups.getD 0 (dummyGroup F)).fft x)).flatten)
      (polies.length * 2)
    poly_num := polies.length
    log_degree := logd }

/-- `i`-fold application of the coefficient-level fold, consuming the round
challenges in order. -/
def foldCoeffsIter {F : Type} [Field F] (cs : List F) (a : List F) : Nat → List F
  | 0 => a
  | i + 1 => foldCoeffs (cs.getD i 0) (foldCoeffsIter cs a i)

/-- The honest evaluation vector entering round `i` of the commit phase. -/
def hRV {F : Type} [Field F] (polies : List (List F)) (groups : List (Radix2Group F))
    (χ : F) (cs : List F) (logd i : Nat) : List F :=
  (hProver polies groups logd).roundValues groups (χ, cs) i

/-- The honest layer answering the round-`t` query. -/
def hLayer {F : Type} [Field F] (polies : List (List F)) (groups : List (Radix2Group F))
    (χ : F) (cs : List F) (logd t : Nat) : InterpolateValue F :=
  if t = 0 then (hProver polies groups logd).interpolation
  else InterpolateValue.new (hRV polies groups χ cs logd t) 2

/-- The reduced index list after `t` reduction steps (`t = 0` is the raw
sampled index list; round `t` uses `hIdx ... (t+1)`). -/
def hIdx {F : Type} [Field F] (groups : List (Radix2Group F)) (indices : List Nat)
    (t : Nat) : List Nat :=
  verifierIndexSeq groups indices t

/-- The honest round-`t` `QueryResult`. -/
def hQR {F : Type} [Field F] (polies : List (List F)) (groups : List (Radix2Group F))
    (χ : F) (cs : List F) (indices : List Nat) (logd t : Nat) : QueryResult F :=
  ⟨[], honestValues (hLayer polies groups χ cs logd t) (hIdx groups indices (t + 1))⟩

/-- The honest openings, one `QueryResult` per round. -/
def hQRS {F : Type} [Field F] (polies : List (List F)) (groups : List (Radix2Group F))
    (χ : F) (cs : List F) (indices : List Nat) (logd : Nat) : List (QueryResult F) :=
  (List.range logd).map (fun t => hQR polies groups χ cs indices logd t)

structure HonestSetup {F : Type} [Field F] (polies : List (List F))
    (groups : List (Radix2Group F)) (χ : F) (cs : List F) (logd r : Nat) : Prop where
  hP : 0 < polies.length
  hlen : ∀ q ∈ polies, q.length = 2 ^ logd
  hld : 1 ≤ logd
  hglen : groups.length = logd
  hsize : ∀ t, t < logd → (groups.getD t (dummyGroup F)).logSize = logd + r - t
  hneg : ∀ t, t < logd → (groups.getD t (dummyGroup F)).gen ^ 2 ^ (logd + r - t - 1) = -1
  hsq : ∀ t, t + 1 < logd →
    (groups.getD (t + 1) (dummyGroup F)).gen = (groups.getD t (dummyGroup F)).gen ^ 2
  hcs : cs.length = logd
  h2 : (2 : F) ≠ 0

/-- The modulus 17 is prime; `ZMod 17` is the small concrete field used for
witnesses (its multiplicative group has order 16, so it has the radix-2
roots of unity the domains need). -/
theorem mapOpt_eq_map {α β : Type} (f : α → Option β) (g : α → β) :
    ∀ l : List α, (∀ a ∈ l, f a = some (g a)) → mapOpt f l = some (l.map g)
  | [], _ => rfl
  | a :: l, h => by
    have ht := mapOpt_eq_map f g l (fun b hb => h b (List.mem_cons_of_mem a hb))
    simp [mapOpt, h a (List.mem_cons_self a l), ht]

theorem mapOpt_eq_none {α β : Type} (f : α → Option β) {a : α} :
    ∀ l : List α, a ∈ l → f a = none → mapOpt f l = none
  | b :: l, hmem, hnone => by
    rcases List.mem_cons.mp hmem with rfl | h
    · simp [mapOpt, hnone]
    · cases hb : f b with
      | none => simp [mapOpt, hb]
      | some v => simp [mapOpt, hb, mapOpt_eq_none f l h hnone]

theorem lookup_map_fst {F : Type} (fv : Nat → F) (k : Nat) :
    ∀ l : List (Nat × F), (∀ p ∈ l, p.2 = fv p.1) → k ∈ l.map Prod.fst →
      l.lookup k = some (fv k)
  | [], _, hmem => by simp at hmem
  | ⟨k1, v1⟩ :: l, hall, hmem => by
    by_cases hk : k = k1
    · have hv : v1 = fv k1 := hall ⟨k1, v1⟩ (List.mem_cons_self _ _)
      subst hk
      simp [List.lookup, hv]
    · have hb : (k == k1) = false := beq_eq_false_iff_ne.mpr hk
      have hm2 : k ∈ l.map Prod.fst := by
        rcases List.mem_map.mp hmem with ⟨p, hp, hpk⟩
        rcases List.mem_cons.mp hp with rfl | hp2
        · exact absurd hpk.symm hk
        · exact List.mem_map.mpr ⟨p, hp2, hpk⟩
      simpa [List.lookup, hb] using
        lookup_map_fst fv k l (fun q hq => hall q (List.mem_cons_of_mem _ hq)) hm2

theorem mem_destutter_ne_of_mem {α : Type} [DecidableEq α] (b : α) :
    ∀ (l : List α) (a : α), b ∈ a :: l → b ∈ l.destutter' (fun x y => x ≠ y) a
  | [], a, h => by simpa using h
  | c :: l, a, h => by
    by_cases hac : a ≠ c
    · rw [List.destutter'_cons_pos _ hac]
      rcases List.mem_cons.mp h with rfl | h2
      · exact List.mem_cons_self _ _
      · exact List.mem_cons_of_mem _ (mem_destutter_ne_of_mem b l c h2)
    · push_neg at hac
      rw [List.destutter'_cons_neg _ (by simp [hac])]
      subst hac
      rcases List.mem_cons.mp h with rfl | h2
      · exact mem_destutter_ne_of_mem b l b (List.mem_cons_self _ _)
      · exact mem_destutter_ne_of_mem b l a h2

theorem mem_sortDedup {l : List Nat} {a : Nat} : a ∈ sortDedup l ↔ a ∈ l := by
  unfold sortDedup
  constructor
  · intro h
    have hs := (List.destutter_sublist (fun x y => x ≠ y)
      (l.mergeSort (fun a b => decide (a ≤ b)))).subset h
    exact (List.mergeSort_perm l _).mem_iff.mp hs
  · intro h
    have h2 : a ∈ l.mergeSort (fun a b => decide (a ≤ b)) :=
      (List.mergeSort_perm l _).mem_iff.mpr h
    rcases hm : l.mergeSort (fun a b => decide (a ≤ b)) with _ | ⟨c, t⟩
    · rw [hm] at h2; simp at h2
    · rw [hm] at h2
      rw [List.destutter_cons']
      exact mem_destutter_ne_of_mem a t c h2

theorem getD_map_range {α : Type} (f : Nat → α) {n i : Nat} (d : α) (h : i < n) :
    ((List.range n).map f).getD i d = f i := by
  rw [List.getD_eq_get?, List.get?_map, List.get?_range h]
  rfl

theorem getD_flatten_stride {α : Type} (n : Nat) (d : α) :
    ∀ (l : List (List α)) (k i : Nat), (∀ x ∈ l, x.length = n) → k < l.length → i < n →
      l.flatten.getD (i + k * n) d = (l.getD k []).getD i d
  | [], k, _, _, hk, _ => by simp at hk
  | x :: l, 0, i, hall, _, hi => by
    have hx : x.length = n := hall x (List.mem_cons_self _ _)
    rw [List.flatten_cons]
    simpa using List.getD_append x l.flatten d i (by omega)
  | x :: l, k + 1, i, hall, hk, hi => by
    have hx : x.length = n := hall x (List.mem_cons_self _ _)
    rw [List.flatten_cons]
    rw [List.getD_append_right x l.flatten d (i + (k + 1) * n) (by nlinarith)]
    have harith : i + (k + 1) * n - x.length = i + k * n := by
      rw [hx]; ring_nf; omega
    rw [harith]
    have := getD_flatten_stride n d l k i
      (fun y hy => hall y (List.mem_cons_of_mem _ hy)) (by simpa using hk) hi
    simpa using this

theorem length_flatten_const {α : Type} (n : Nat) :
    ∀ l : List (List α), (∀ x ∈ l, x.length = n) → l.flatten.length = l.length * n
  | [], _ => by simp
  | x :: l, hall => by
    rw [List.flatten_cons, List.length_append, hall x (List.mem_cons_self _ _),
      length_flatten_const n l (fun y hy => hall y (List.mem_cons_of_mem _ hy)),
      List.length_cons]
    ring

theorem foldl_range_getD {α β : Type} (f : β → α → β) (d : α) :
    ∀ (l : List α) (b : β),
      (List.range l.length).foldl (fun acc k => f acc (l.getD k d)) b = l.foldl f b
  | [], _ => rfl
  | a :: l, b => by
    rw [List.length_cons, List.range_succ_eq_map, List.foldl_cons, List.foldl_map]
    have hstep : ∀ (acc : β) (k : Nat), k ∈ List.range l.length →
        f acc ((a :: l).getD (Nat.succ k) d) = f acc (l.getD k d) := by
      intro acc k _
      rfl
    rw [List.foldl_ext _ _ _ hstep]
    exact foldl_range_getD f d l (f b a)

/-- Coefficients of the folded polynomial `f_e + c*(f_o - f_e)`, read off
pairwise from the input coefficients. -/
theorem evalPoly_nil {F : Type} [Field F] (x : F) : evalPoly [] x = 0 := rfl

theorem evalPoly_cons {F : Type} [Field F] (a : F) (l : List F) (x : F) :
    evalPoly (a :: l) x = a + x * evalPoly l x := rfl

theorem evalPoly_even_odd {F : Type} [Field F] (x : F) :
    ∀ a : List F, evalPoly a x = evalPoly (evensC a) (x ^ 2) + x * evalPoly (oddsC a) (x ^ 2)
  | [] => by simp [evalPoly, evensC, oddsC]
  | [a] => by simp [evalPoly, evensC, oddsC]
  | a :: b :: t => by
    rw [evalPoly_cons, evalPoly_cons, evalPoly_even_odd x t]
    show _ = evalPoly (a :: evensC t) _ + x * evalPoly (b :: oddsC t) _
    rw [evalPoly_cons, evalPoly_cons]
    ring

theorem evalPoly_foldCoeffs {F : Type} [Field F] (c z : F) :
    ∀ a : List F, evalPoly (foldCoeffs c a) z =
      evalPoly (evensC a) z + c * (evalPoly (oddsC a) z - evalPoly (evensC a) z)
  | [] => by simp [evalPoly, evensC, oddsC, foldCoeffs]
  | [a] => by simp [evalPoly, evensC, oddsC, foldCoeffs]
  | a :: b :: t => by
    show evalPoly ((a + c * (b - a)) :: foldCoeffs c t) z =
      evalPoly (a :: evensC t) z + c * (evalPoly (b :: oddsC t) z - evalPoly (a :: evensC t) z)
    rw [evalPoly_cons, evalPoly_cons, evalPoly_cons, evalPoly_foldCoeffs c z t]
    ring

theorem foldCoeffs_length {F : Type} [Field F] (c : F) :
    ∀ a : List F, (foldCoeffs c a).length = (a.length + 1) / 2
  | [] => by simp [foldCoeffs]
  | [_] => by simp [foldCoeffs]
  | a :: b :: t => by
    rw [show foldCoeffs c (a :: b :: t) = (a + c * (b - a)) :: foldCoeffs c t from by
      simp [foldCoeffs]]
    rw [List.length_cons, foldCoeffs_length c t]
    simp only [List.length_cons]
    omega

/-- The FRI fold identity: the value the code computes from the paired
evaluations `f(y)`, `f(-y)` and the inverse point `y⁻¹`, halved, is the
evaluation of the folded polynomial at `y^2`. -/
theorem fold_identity {F : Type} [Field F] (a : List F) (c y : F) (hy : y ≠ 0)
    (h2 : (2 : F) ≠ 0) :
    ((evalPoly a y + evalPoly a (-y)) +
        c * ((evalPoly a y - evalPoly a (-y)) * y⁻¹ - (evalPoly a y + evalPoly a (-y)))) *
        (2 : F)⁻¹ =
      evalPoly (foldCoeffs c a) (y ^ 2) := by
  rw [evalPoly_foldCoeffs, evalPoly_even_odd y a, evalPoly_even_odd (-y) a]
  rw [show (-y : F) ^ 2 = y ^ 2 by ring]
  field_simp
  ring

/-- Coefficients of the Horner-batched polynomial
`sum_k polies[k] * c^(polyCount-1-k)`. -/
theorem evalPoly_scaleC {F : Type} [Field F] (c x : F) :
    ∀ a : List F, evalPoly (scaleC c a) x = c * evalPoly a x
  | [] => by simp [scaleC, evalPoly]
  | a :: t => by
    show evalPoly ((c * a) :: scaleC c t) x = _
    rw [evalPoly_cons, evalPoly_cons, evalPoly_scaleC c x t]
    ring

theorem evalPoly_addC {F : Type} [Field F] (x : F) :
    ∀ a b : List F, evalPoly (addC a b) x = evalPoly a x + evalPoly b x
  | [], l => by simp [addC, evalPoly]
  | a :: t, [] => by simp [addC, evalPoly]
  | a :: t, b :: s => by
    show evalPoly ((a + b) :: addC t s) x = _
    rw [evalPoly_cons, evalPoly_cons, evalPoly_cons, evalPoly_addC x t s]
    ring

theorem evalPoly_batch_foldl {F : Type} [Field F] (c x : F) :
    ∀ (l : List (List F)) (acc : List F),
      evalPoly (l.foldl (fun a q => addC (scaleC c a) q) acc) x =
        l.foldl (fun a q => a * c + evalPoly q x) (evalPoly acc x)
  | [], _ => rfl
  | q :: l, acc => by
    rw [List.foldl_cons, List.foldl_cons, evalPoly_batch_foldl c x l]
    rw [evalPoly_addC, evalPoly_scaleC, mul_comm c (evalPoly acc x)]

theorem evalPoly_batchCoeffs {F : Type} [Field F] (c x : F) (polies : List (List F)) :
    evalPoly (batchCoeffs c polies) x =
      polies.foldl (fun a q => a * c + evalPoly q x) 0 := by
  rw [batchCoeffs, evalPoly_batch_foldl]
  rw [evalPoly_nil]

theorem scaleC_length {F : Type} [Field F] (c : F) (a : List F) :
    (scaleC c a).length = a.length := by simp [scaleC]

theorem addC_length {F : Type} [Field F] :
    ∀ a b : List F, (addC a b).length = max a.length b.length
  | [], l => by simp [addC]
  | a :: t, [] => by simp [addC]
  | a :: t, b :: s => by
    show (addC t s).length + 1 = _
    rw [addC_length t s]
    simp only [List.length_cons]
    omega

theorem batch_foldl_length_of_eq {F : Type} [Field F] (c : F) (n : Nat) :
    ∀ (l : List (List F)) (acc : List F), (∀ q ∈ l, q.length = n) → acc.length = n →
      (l.foldl (fun a q => addC (scaleC c a) q) acc).length = n
  | [], _, _, hacc => hacc
  | q :: l, acc, hall, hacc => by
    rw [List.foldl_cons]
    refine batch_foldl_length_of_eq c n l _ (fun r hr => hall r (List.mem_cons_of_mem _ hr)) ?_
    rw [addC_length, scaleC_length, hacc, hall q (List.mem_cons_self _ _)]
    omega

theorem batchCoeffs_length {F : Type} [Field F] (c : F) (n : Nat) :
    ∀ polies : List (List F), polies ≠ [] → (∀ q ∈ polies, q.length = n) →
      (batchCoeffs c polies).length = n
  | [], hne, _ => absurd rfl hne
  | q :: l, _, hall => by
    rw [batchCoeffs, List.foldl_cons]
    have hq : addC (scaleC c []) q = q := by
      show addC [] q = q
      simp [addC]
    rw [hq]
    exact batch_foldl_length_of_eq c n l q (fun r hr => hall r (List.mem_cons_of_mem _ hr))
      (hall q (List.mem_cons_self _ _))

theorem evalPoly_length_one {F : Type} [Field F] (a : List F) (h : a.length = 1) (x : F) :
    evalPoly a x = a.getD 0 0 := by
  rcases a with _ | ⟨v, _ | ⟨w, t⟩⟩
  · simp at h
  · rw [evalPoly_cons, evalPoly_nil]
    simp
  · simp at h

/-- The per-lane fold expression the verifier recomputes (and, up to the
final halving, the prover's fold numerator): linear in `(x, nx)`. -/
theorem foldl_horner_foldExpr {F : Type} [Field F] (c w χ : F) :
    ∀ (l : List (F × F)) (A B : F),
      l.foldl (fun acc p => acc * χ + foldExpr c w p.1 p.2) (foldExpr c w A B) =
        foldExpr c w (l.foldl (fun acc p => acc * χ + p.1) A)
          (l.foldl (fun acc p => acc * χ + p.2) B)
  | [], _, _ => rfl
  | p :: l, A, B => by
    rw [List.foldl_cons, List.foldl_cons, List.foldl_cons]
    rw [show foldExpr c w A B * χ + foldExpr c w p.1 p.2 =
      foldExpr c w (A * χ + p.1) (B * χ + p.2) by unfold foldExpr; ring]
    exact foldl_horner_foldExpr c w χ l _ _

theorem foldExpr_zero {F : Type} [Field F] (c w : F) : foldExpr c w 0 0 = 0 := by
  unfold foldExpr; ring

theorem horner_foldl_eq_sum {F : Type} [Field F] (c : F) (a : Nat → F) :
    ∀ n : Nat, (List.range n).foldl (fun acc k => acc * c + a k) 0 =
      ∑ k ∈ Finset.range n, a k * c ^ (n - 1 - k)
  | 0 => by simp
  | n + 1 => by
    rw [List.range_succ, List.foldl_append, List.foldl_cons, List.foldl_nil,
      horner_foldl_eq_sum c a n, Finset.sum_range_succ]
    have hshift : ∀ k ∈ Finset.range n, a k * c ^ (n + 1 - 1 - k) = a k * c ^ (n - 1 - k) * c := by
      intro k hk
      have hk' : k < n := Finset.mem_range.mp hk
      rw [mul_assoc, ← pow_succ]
      congr 2
      omega
    rw [Finset.sum_congr rfl hshift, ← Finset.sum_mul]
    simp

theorem get?_eq_some_getD {α : Type} (l : List α) (d : α) {k : Nat} (h : k < l.length) :
    l.get? k = some (l.getD k d) := by
  rw [List.getD_eq_get?]
  cases hh : l.get? k with
  | none => rw [List.get?_eq_none] at hh; omega
  | some v => rfl

/-- C10: whenever `QueryResult::verify_merkle_tree` returns at all, the
returned boolean is `true`: a `false` verification outcome is converted by
the `assert!` into an abort, so no caller can ever observe `some false`. -/
theorem c10_verify_merkle_tree_never_false {F : Type} [DecidableEq F] (q : QueryResult F)
    (leaf_indices : List Nat) (leaf_size : Nat) (mv : MerkleTreeVerifier F) :
    q.verify_merkle_tree leaf_indices leaf_size mv ≠ some false := by
  unfold QueryResult.verify_merkle_tree
  cases h : mapOpt
      (fun x => mapOpt (fun j => q.values.lookup (x + j * mv.leave_number))
        (List.range leaf_size)) leaf_indices with
  | none => simp [h]
  | some leaves =>
    simp only [h, Option.bind_eq_bind, Option.some_bind]
    by_cases hres : mv.verify q.paths leaf_indices leaves = true
    · simp [hres]
    · simp [hres]

/-- C2: at a concrete corrupted opening (claimed value 5 at index 0 against
a commitment whose leaf 0 holds 3), the failed Merkle verification makes
`verify_merkle_tree` abort the process (modelled `none`) instead of
returning a reject outcome to the caller. -/
theorem c2_verify_merkle_tree_abort_on_mismatch :
    QueryResult.verify_merkle_tree (F := ZMod 17) ⟨[], [(0, 5)]⟩ [0] 1 ⟨1, [[3]]⟩ = none := by
  decide

/-- The association list of opened values that `InterpolateValue::query`
returns for an in-range index list: for each lane `k` and each requested
index `j`, the pair `(j + k*leave_num, value[j + k*leave_num])`. -/
theorem query_none_of_ge {F : Type} [Field F] (self : InterpolateValue F)
    (leaf_indices : List Nat)
    (hsz : self.merkle_tree.leave_num * self.leaf_size = self.value.length)
    (hls : 0 < self.leaf_size)
    (h : ∃ j ∈ leaf_indices, self.merkle_tree.leave_num ≤ j) :
    self.query leaf_indices = none := by
  set n := self.merkle_tree.leave_num with hn
  obtain ⟨j, hj, hjn⟩ := h
  unfold InterpolateValue.query
  rw [if_pos hsz]
  have hinner : mapOpt (fun j' => (self.value.get? (j' + (self.leaf_size - 1) * n)).map
      (fun v => (j' + (self.leaf_size - 1) * n, v))) leaf_indices = none := by
    apply mapOpt_eq_none _ leaf_indices hj
    have hge : self.value.length ≤ j + (self.leaf_size - 1) * n := by
      have h2 : n * self.leaf_size = n * (self.leaf_size - 1) + n := by
        conv_lhs => rw [← Nat.succ_pred_eq_of_pos hls]
        exact Nat.mul_succ n (self.leaf_size - 1)
      have h3 : (self.leaf_size - 1) * n = n * (self.leaf_size - 1) := Nat.mul_comm _ _
      omega
    rw [List.get?_eq_none.mpr hge]
    rfl
  rw [mapOpt_eq_none _ (List.range self.leaf_size)
    (List.mem_range.mpr (by omega : self.leaf_size - 1 < self.leaf_size)) hinner]
  rfl

theorem query_some_of_lt {F : Type} [Field F] (self : InterpolateValue F)
    (leaf_indices : List Nat)
    (hsz : self.merkle_tree.leave_num * self.leaf_size = self.value.length)
    (hall : ∀ j ∈ leaf_indices, j < self.merkle_tree.leave_num) :
    self.query leaf_indices =
      some ⟨self.merkle_tree.openPaths leaf_indices, honestValues self leaf_indices⟩ := by
  set n := self.merkle_tree.leave_num with hn
  unfold InterpolateValue.query
  rw [if_pos hsz]
  have houter : mapOpt (fun i =>
      mapOpt (fun j => (self.value.get? (j + i * n)).map (fun v => (j + i * n, v)))
        leaf_indices) (List.range self.leaf_size) =
      some ((List.range self.leaf_size).map (fun k =>
        leaf_indices.map (fun j => (j + k * n, self.value.getD (j + k * n) 0)))) := by
    apply mapOpt_eq_map
    intro i hi
    apply mapOpt_eq_map
    intro j hj
    have hlt : j + i * n < self.value.length := by
      have hjn := hall j hj
      have hin : i < self.leaf_size := List.mem_range.mp hi
      have : j + i * n < n + i * n := by omega
      have h2 : n + i * n ≤ n * self.leaf_size := by
        have : i + 1 ≤ self.leaf_size := hin
        calc n + i * n = (i + 1) * n := by ring
          _ ≤ self.leaf_size * n := Nat.mul_le_mul_right n hin
          _ = n * self.leaf_size := Nat.mul_comm _ _
      omega
    rw [get?_eq_some_getD self.value 0 hlt]
    rfl
  rw [houter]
  rfl

/-- C7: `InterpolateValue::query` aborts (out-of-bounds panic, the
`IndexOutOfRange` failure) whenever some requested index reaches the leaf
count `n`; otherwise it returns, for each lane `k` and each requested
index `j`, the value at flat index `j + k*n`, together with the batched
opening proof for the requested indices. -/
theorem c7_query_spec {F : Type} [Field F] (self : InterpolateValue F)
    (leaf_indices : List Nat)
    (hsz : self.merkle_tree.leave_num * self.leaf_size = self.value.length)
    (hls : 0 < self.leaf_size) :
    ((∃ j ∈ leaf_indices, self.merkle_tree.leave_num ≤ j) →
        self.query leaf_indices = none) ∧
      ((∀ j ∈ leaf_indices, j < self.merkle_tree.leave_num) →
        self.query leaf_indices =
          some ⟨self.merkle_tree.openPaths leaf_indices,
            ((List.range self.leaf_size).map (fun k =>
              leaf_indices.map (fun j =>
                (j + k * self.merkle_tree.leave_num,
                  self.value.getD (j + k * self.merkle_tree.leave_num) 0)))).flatten⟩) :=
  ⟨fun h => query_none_of_ge self leaf_indices hsz hls h,
   fun h => query_some_of_lt self leaf_indices hsz h⟩

/-- C8 counterexample: two input polynomials of different power-of-two
lengths (4 and 2); `Prover::new` succeeds anyway — there is no
`DegreeMismatch` failure at construction. -/
theorem c8_no_degree_mismatch_cex :
    (Prover.new (F := ZMod 17) [[1, 0, 0, 0], [1, 0]] ⟨2, 13⟩).isSome = true := by
  decide

/-- C8 amended: `Prover::new` performs no cross-polynomial length check.
For any nonempty input list whose first polynomial is nonempty — the
lengths may differ arbitrarily — construction succeeds, `log_degree` is
`log2` of the FIRST polynomial's length, and the base layer is the
concatenated per-polynomial FFT evaluations with lane width
`2 * polyCount`. -/
theorem c8_prover_new_amended {F : Type} [Field F] (polies : List (List F))
    (group : Radix2Group F) (q : List F) (rest : List (List F))
    (hp : polies = q :: rest) (hq : q.length ≠ 0) :
    Prover.new polies group = some
      { interpolation := InterpolateValue.new
          ((polies.map (fun x => group.fft x)).flatten) (polies.length * 2)
        poly_num := polies.length
        log_degree := Nat.log2 q.length } := by
  subst hp
  simp [Prover.new, hq]

/-- C8 amended witness: at the concrete mismatched input the construction
succeeds with `log_degree = 2` (log2 of the first length 4). -/
theorem c8_prover_new_amended_witness :
    Prover.new (F := ZMod 17) [[1, 0, 0, 0], [1, 0]] ⟨2, 13⟩ = some
      { interpolation := InterpolateValue.new
          (([[1, 0, 0, 0], [1, 0]].map
            (fun x => Radix2Group.fft (F := ZMod 17) ⟨2, 13⟩ x)).flatten) (2 * 2)
        poly_num := 2
        log_degree := Nat.log2 4 } :=
  c8_prover_new_amended [[1, 0, 0, 0], [1, 0]] ⟨2, 13⟩ [1, 0, 0, 0] [[1, 0]] rfl (by decide)

/-- C9: the commitments produced by `commit_phase` have
`proof_size = 32 * (log_degree - 1) + W` because they hold exactly
`log_degree - 1` round roots of 32 bytes plus the final scalar of `W`
bytes, and every `QueryResult` has
`proof_size = paths.length + valueCount * W`. -/
theorem c9_proof_size_spec {F : Type} [Field F] (p : Prover F)
    (groups : List (Radix2Group F)) (challenges : F × List F)
    (hld : 1 ≤ p.log_degree) :
    (p.commit_phase groups challenges).2.proof_size =
        32 * (p.log_degree - 1) + frByteWidth ∧
      (p.commit_phase groups challenges).2.merkle_roots.length = p.log_degree - 1 ∧
      ∀ q : QueryResult F, q.proof_size = q.paths.length + q.values.length * frByteWidth := by
  refine ⟨?_, ?_, fun q => rfl⟩
  · simp [Prover.commit_phase, IoppCommits.proof_size, Nat.mul_comm]
  · simp [Prover.commit_phase]

/-- C9 witness: a concrete two-round prover gives
`proof_size = 32 * 1 + 32 = 64` with exactly one round root. -/
theorem c9_proof_size_witness :
    (Prover.commit_phase (F := ZMod 17) ⟨InterpolateValue.new [1, 2, 3, 4] 2, 1, 2⟩
        [⟨2, 13⟩, ⟨1, 16⟩] (3, [5, 7])).2.proof_size = 32 * (2 - 1) + frByteWidth ∧
      (Prover.commit_phase (F := ZMod 17) ⟨InterpolateValue.new [1, 2, 3, 4] 2, 1, 2⟩
        [⟨2, 13⟩, ⟨1, 16⟩] (3, [5, 7])).2.merkle_roots.length = 2 - 1 ∧
      ∀ q : QueryResult (ZMod 17),
        q.proof_size = q.paths.length + q.values.length * frByteWidth :=
  c9_proof_size_spec ⟨InterpolateValue.new [1, 2, 3, 4] 2, 1, 2⟩
    [⟨2, 13⟩, ⟨1, 16⟩] (3, [5, 7]) (by decide)

/-- C7 witness: for the 2-lane layer over `[1,2,3,4,5,6]` (3 leaves), the
query at index 3 aborts, and the query at indices 1, 2 returns the values
at flat indices `j + k*3` for both lanes. -/
theorem c7_query_spec_witness :
    (InterpolateValue.new (F := ZMod 17) [1, 2, 3, 4, 5, 6] 2).query [3] = none ∧
      (InterpolateValue.new (F := ZMod 17) [1, 2, 3, 4, 5, 6] 2).query [1, 2] =
        some ⟨[], [(1, 2), (2, 3), (4, 5), (5, 6)]⟩ := by
  constructor
  · exact (c7_query_spec (InterpolateValue.new [1, 2, 3, 4, 5, 6] 2) [3]
      (by decide) (by decide)).1 (by decide)
  · have h := (c7_query_spec (InterpolateValue.new (F := ZMod 17) [1, 2, 3, 4, 5, 6] 2)
      [1, 2] (by decide) (by decide)).2 (by decide)
    rw [h]
    decide

/-- C4: the batching stage of `commit_phase` yields a vector of length
`n0 = domains[0].size()` whose entry `i` is the Horner accumulation
`acc = acc * batchChallenge + value[i + k*n0]` over lanes
`k = 0, ..., polyCount-1`, equivalently
`sum_k value[i + k*n0] * batchChallenge^(polyCount-1-k)`. -/
theorem c4_batching_spec {F : Type} [Field F] (p : Prover F)
    (groups : List (Radix2Group F)) (challenges : F × List F) (i : Nat)
    (hi : i < (groups.getD 0 (dummyGroup F)).size) :
    (p.roundValues groups challenges 0).length = (groups.getD 0 (dummyGroup F)).size ∧
      (p.roundValues groups challenges 0).getD i 0 =
        (List.range p.poly_num).foldl
          (fun acc k => acc * challenges.1 +
            p.interpolation.value.getD (i + k * (groups.getD 0 (dummyGroup F)).size) 0) 0 ∧
      (p.roundValues groups challenges 0).getD i 0 =
        ∑ k ∈ Finset.range p.poly_num,
          p.interpolation.value.getD (i + k * (groups.getD 0 (dummyGroup F)).size) 0 *
            challenges.1 ^ (p.poly_num - 1 - k) := by
  have hb : p.roundValues groups challenges 0 =
      batchValues p.interpolation.value (groups.getD 0 (dummyGroup F)).size p.poly_num
        challenges.1 := by
    simp [Prover.roundValues]
  have hget : (p.roundValues groups challenges 0).getD i 0 =
      (List.range p.poly_num).foldl
        (fun acc k => acc * challenges.1 +
          p.interpolation.value.getD (i + k * (groups.getD 0 (dummyGroup F)).size) 0) 0 := by
    rw [hb, batchValues, getD_map_range _ 0 hi]
  refine ⟨?_, hget, ?_⟩
  · rw [hb, batchValues]
    simp
  · rw [hget, horner_foldl_eq_sum]

/-- C4 witness: a concrete 2-lane batching instance. -/
theorem c4_batching_spec_witness :
    (Prover.roundValues (F := ZMod 17) ⟨InterpolateValue.new [1, 2, 3, 4] 4, 2, 1⟩
        [⟨1, 16⟩] (3, [5]) 0).length = 2 ∧
      (Prover.roundValues (F := ZMod 17) ⟨InterpolateValue.new [1, 2, 3, 4] 4, 2, 1⟩
          [⟨1, 16⟩] (3, [5]) 0).getD 1 0 =
        (List.range 2).foldl (fun acc k =>
          acc * 3 + (InterpolateValue.new (F := ZMod 17) [1, 2, 3, 4] 4).value.getD
            (1 + k * 2) 0) 0 ∧
      (Prover.roundValues (F := ZMod 17) ⟨InterpolateValue.new [1, 2, 3, 4] 4, 2, 1⟩
          [⟨1, 16⟩] (3, [5]) 0).getD 1 0 =
        ∑ k ∈ Finset.range 2,
          (InterpolateValue.new (F := ZMod 17) [1, 2, 3, 4] 4).value.getD (1 + k * 2) 0 *
            (3 : ZMod 17) ^ (2 - 1 - k) :=
  c4_batching_spec ⟨InterpolateValue.new [1, 2, 3, 4] 4, 2, 1⟩ [⟨1, 16⟩] (3, [5]) 1
    (by decide)

/-- C3: in `commit_phase`, the round-`i` fold writes at every position
`pos < len/2` the value
`(sum + foldChallenges[i] * ((x-nx)*elementInverseAt(pos) - sum)) * inverse(2)`
with `x = v[pos]`, `nx = v[pos+len/2]`, `sum = x+nx`; for
`i < log_degree - 1` the resulting half-length vector is wrapped in an
`InterpolateValue` of lane width 2 and committed, and the last round
contributes the final value (element 0 of its output vector). -/
theorem c3_fold_round_spec {F : Type} [Field F] (p : Prover F)
    (groups : List (Radix2Group F)) (challenges : F × List F) (i pos : Nat)
    (hi : i < p.log_degree)
    (hlen : (p.roundValues groups challenges i).length =
      (groups.getD i (dummyGroup F)).size)
    (hpos : pos < (groups.getD i (dummyGroup F)).size / 2) :
    ((p.roundValues groups challenges (i + 1)).getD pos 0 =
      (let v := p.roundValues groups challenges i
       let len := (groups.getD i (dummyGroup F)).size
       let x := v.getD pos 0
       let nx := v.getD (pos + len / 2) 0
       let sum := x + nx
       (sum + challenges.2.getD i 0 *
         ((x - nx) * (groups.getD i (dummyGroup F)).element_inv_at pos - sum)) *
         (2 : F)⁻¹)) ∧
    (p.roundValues groups challenges (i + 1)).length =
      (groups.getD i (dummyGroup F)).size / 2 ∧
    (i < p.log_degree - 1 →
      (p.commit_phase groups challenges).1.interpolations.getD i ⟨[], 0, ⟨[]⟩⟩ =
        InterpolateValue.new (p.roundValues groups challenges (i + 1)) 2 ∧
      (p.commit_phase groups challenges).2.merkle_roots.getD i [] =
        (InterpolateValue.new (p.roundValues groups challenges (i + 1)) 2).commit) ∧
    (p.commit_phase groups challenges).2.final_value =
      (p.roundValues groups challenges p.log_degree).getD 0 0 := by
  refine ⟨?_, ?_, ?_, ?_⟩
  · rw [show p.roundValues groups challenges (i + 1) =
      Prover.evaluate_next_domain (p.roundValues groups challenges i)
        (groups.getD i (dummyGroup F)) (2 : F)⁻¹ (challenges.2.getD i 0) from rfl]
    rw [Prover.evaluate_next_domain, getD_map_range _ 0 hpos]
  · rw [show p.roundValues groups challenges (i + 1) =
      Prover.evaluate_next_domain (p.roundValues groups challenges i)
        (groups.getD i (dummyGroup F)) (2 : F)⁻¹ (challenges.2.getD i 0) from rfl]
    rw [Prover.evaluate_next_domain]
    simp
  · intro hilt
    constructor
    · rw [show (p.commit_phase groups challenges).1.interpolations =
        (List.range (p.log_degree - 1)).map
          (fun k => InterpolateValue.new (p.roundValues groups challenges (k + 1)) 2)
        from rfl]
      rw [getD_map_range _ _ (by omega)]
    · rw [show (p.commit_phase groups challenges).2.merkle_roots =
        ((List.range (p.log_degree - 1)).map
          (fun k => InterpolateValue.new (p.roundValues groups challenges (k + 1)) 2)).map
          (fun x => x.commit) from rfl]
      rw [List.map_map, getD_map_range _ _ (by omega)]
      rfl
  · rfl

/-- C3 witness: a concrete two-round instance (round 0, position 0). -/
theorem c3_fold_round_spec_witness :
    ((Prover.roundValues (F := ZMod 17) ⟨InterpolateValue.new [1, 2, 3, 4] 2, 1, 2⟩
        [⟨2, 13⟩, ⟨1, 16⟩] (3, [5, 7]) (0 + 1)).getD 0 0 =
      (let v := Prover.roundValues (F := ZMod 17) ⟨InterpolateValue.new [1, 2, 3, 4] 2, 1, 2⟩
        [⟨2, 13⟩, ⟨1, 16⟩] (3, [5, 7]) 0
       let len := (([⟨2, 13⟩, ⟨1, 16⟩] : List (Radix2Group (ZMod 17))).getD 0
         (dummyGroup (ZMod 17))).size
       let x := v.getD 0 0
       let nx := v.getD (0 + len / 2) 0
       let sum := x + nx
       (sum + (5 : ZMod 17) *
         ((x - nx) * (([⟨2, 13⟩, ⟨1, 16⟩] : List (Radix2Group (ZMod 17))).getD 0
           (dummyGroup (ZMod 17))).element_inv_at 0 - sum)) * (2 : ZMod 17)⁻¹)) ∧
    (Prover.roundValues (F := ZMod 17) ⟨InterpolateValue.new [1, 2, 3, 4] 2, 1, 2⟩
      [⟨2, 13⟩, ⟨1, 16⟩] (3, [5, 7]) (0 + 1)).length = 4 / 2 ∧
    (0 < 2 - 1 →
      (Prover.commit_phase (F := ZMod 17) ⟨InterpolateValue.new [1, 2, 3, 4] 2, 1, 2⟩
          [⟨2, 13⟩, ⟨1, 16⟩] (3, [5, 7])).1.interpolations.getD 0 ⟨[], 0, ⟨[]⟩⟩ =
        InterpolateValue.new (Prover.roundValues (F := ZMod 17)
          ⟨InterpolateValue.new [1, 2, 3, 4] 2, 1, 2⟩ [⟨2, 13⟩, ⟨1, 16⟩] (3, [5, 7]) (0 + 1)) 2 ∧
      (Prover.commit_phase (F := ZMod 17) ⟨InterpolateValue.new [1, 2, 3, 4] 2, 1, 2⟩
          [⟨2, 13⟩, ⟨1, 16⟩] (3, [5, 7])).2.merkle_roots.getD 0 [] =
        (InterpolateValue.new (Prover.roundValues (F := ZMod 17)
          ⟨InterpolateValue.new [1, 2, 3, 4] 2, 1, 2⟩ [⟨2, 13⟩, ⟨1, 16⟩] (3, [5, 7]) (0 + 1))
          2).commit) ∧
    (Prover.commit_phase (F := ZMod 17) ⟨InterpolateValue.new [1, 2, 3, 4] 2, 1, 2⟩
        [⟨2, 13⟩, ⟨1, 16⟩] (3, [5, 7])).2.final_value =
      (Prover.roundValues (F := ZMod 17) ⟨InterpolateValue.new [1, 2, 3, 4] 2, 1, 2⟩
        [⟨2, 13⟩, ⟨1, 16⟩] (3, [5, 7]) 2).getD 0 0 :=
  c3_fold_round_spec ⟨InterpolateValue.new [1, 2, 3, 4] 2, 1, 2⟩ [⟨2, 13⟩, ⟨1, 16⟩]
    (3, [5, 7]) 0 0 (by decide) (by decide) (by decide)

/-- Shared helper for the prover/verifier index-reduction equivalence. -/
theorem indexSeq_consistency {F : Type} [Field F]
    (groups : List (Radix2Group F)) (indices : List Nat) (ds0 s rounds : Nat)
    (h0 : ds0 = 2 ^ s) (hr : rounds ≤ s)
    (hsz : ∀ t, t < rounds → (groups.getD t (dummyGroup F)).size = 2 ^ (s - t))
    (i : Nat) (hi : i ≤ rounds) :
    proverIndexSeq indices ds0 i = verifierIndexSeq groups indices i := by
  induction i with
  | zero => rfl
  | succ t ih =>
    rw [proverIndexSeq, verifierIndexSeq, ih (by omega)]
    congr 1
    have e1 : ds0 / 2 ^ (t + 1) = 2 ^ (s - (t + 1)) := by
      rw [h0, Nat.pow_div (x := 2) (m := s) (n := t + 1) (by omega) (by norm_num)]
    have e2 : (groups.getD t (dummyGroup F)).size >>> 1 = 2 ^ (s - (t + 1)) := by
      rw [hsz t (by omega), Nat.shiftRight_eq_div_pow,
        Nat.pow_div (x := 2) (m := s - t) (n := 1) (by omega) (by norm_num)]
      congr 1
    apply List.map_congr_left
    intro a _
    rw [e1, e2, Nat.and_pow_two_sub_one_eq_mod]

/-- C6: given the prover's initial domain size `2 ^ s` and verifier domains
whose sizes halve from `2 ^ s`, the prover-side index reduction in `sample`
(`idx & (domainSize - 1)` after halving, sorted and deduplicated) and the
verifier-side reduction in `verify` (`idx % (domains[i].size()/2)`, sorted
and deduplicated) produce identical reduced index lists at every round. -/
theorem c6_index_reduction_consistency {F : Type} [Field F]
    (groups : List (Radix2Group F)) (indices : List Nat) (ds0 s rounds : Nat)
    (h0 : ds0 = 2 ^ s) (hr : rounds ≤ s)
    (hsz : ∀ t, t < rounds → (groups.getD t (dummyGroup F)).size = 2 ^ (s - t))
    (i : Nat) (hi : i ≤ rounds) :
    proverIndexSeq indices ds0 i = verifierIndexSeq groups indices i :=
  indexSeq_consistency groups indices ds0 s rounds h0 hr hsz i hi

/-- C6 witness: a concrete two-round reduction over initial domain size 4. -/
theorem c6_index_reduction_consistency_witness :
    proverIndexSeq [5, 9, 2, 2] 4 2 =
      verifierIndexSeq (F := ZMod 17) [⟨2, 13⟩, ⟨1, 16⟩] [5, 9, 2, 2] 2 :=
  c6_index_reduction_consistency [⟨2, 13⟩, ⟨1, 16⟩] [5, 9, 2, 2] 4 2 2 (by decide)
    (by decide) (by decide) 2 (by decide)

/-- The well-formedness hypotheses of the completeness argument: a nonempty
batch of equal `2 ^ logd`-length polynomials, `logd` fold challenges, and
`logd` halving domains whose generator at round `t` has exact order
`2 ^ (logd + r - t)` (its half-order power is `-1`) and squares to the next
round's generator, over a field of characteristic different from 2. -/
theorem prover_new_honest {F : Type} [Field F] {polies : List (List F)}
    {groups : List (Radix2Group F)} {χ : F} {cs : List F} {logd r : Nat}
    (hs : HonestSetup polies groups χ cs logd r) :
    Prover.new polies (groups.getD 0 (dummyGroup F)) = some (hProver polies groups logd) := by
  rcases hpol : polies with _ | ⟨q, rest⟩
  · rw [hpol] at hs
    exact absurd hs.hP (by simp)
  · have hq : q.length = 2 ^ logd := hs.hlen q (by rw [hpol]; exact List.mem_cons_self _ _)
    have hq0 : q.length ≠ 0 := by rw [hq]; positivity
    rw [← hpol]
    unfold Prover.new
    rw [hpol]
    simp only [hq0, if_false]
    rw [← hpol, hProver]
    congr 1
    rw [hq, Nat.log2_two_pow]

theorem fft_length {F : Type} [Field F] (g : Radix2Group F) (q : List F) :
    (g.fft q).length = 2 ^ g.logSize := by
  simp [Radix2Group.fft, Radix2Group.size]

theorem hV_length {F : Type} [Field F] {polies : List (List F)}
    {groups : List (Radix2Group F)} {χ : F} {cs : List F} {logd r : Nat}
    (hs : HonestSetup polies groups χ cs logd r) :
    (hProver polies groups logd).interpolation.value.length =
      polies.length * 2 ^ (logd + r) := by
  show ((polies.map (fun x => (groups.getD 0 (dummyGroup F)).fft x)).flatten).length = _
  rw [length_flatten_const (2 ^ (logd + r))]
  · simp
  · intro x hx
    rcases List.mem_map.mp hx with ⟨q, _, rfl⟩
    rw [fft_length, hs.hsize 0 hs.hld, Nat.sub_zero]

theorem gen_chain {F : Type} [Field F] {polies : List (List F)}
    {groups : List (Radix2Group F)} {χ : F} {cs : List F} {logd r : Nat}
    (hs : HonestSetup polies groups χ cs logd r) :
    ∀ t, t < logd →
      (groups.getD t (dummyGroup F)).gen = (groups.getD 0 (dummyGroup F)).gen ^ 2 ^ t
  | 0, _ => by rw [pow_zero, pow_one]
  | t + 1, h => by
    rw [hs.hsq t h, gen_chain hs t (by omega), ← pow_mul, ← pow_succ]

theorem getD_map_lt {α β : Type} (f : α → β) (l : List α) (d : β) (d' : α) {k : Nat}
    (h : k < l.length) : (l.map f).getD k d = f (l.getD k d') := by
  rw [List.getD_eq_getElem _ _ (by simpa using h), List.getElem_map,
    List.getD_eq_getElem _ _ h]

theorem hV_getD {F : Type} [Field F] {polies : List (List F)}
    {groups : List (Radix2Group F)} {χ : F} {cs : List F} {logd r : Nat}
    (hs : HonestSetup polies groups χ cs logd r) (idx k : Nat)
    (hidx : idx < 2 ^ (logd + r)) (hk : k < polies.length) :
    (hProver polies groups logd).interpolation.value.getD (idx + k * 2 ^ (logd + r)) 0 =
      evalPoly (polies.getD k []) ((groups.getD 0 (dummyGroup F)).gen ^ idx) := by
  have hsz0 : (groups.getD 0 (dummyGroup F)).size = 2 ^ (logd + r) := by
    rw [Radix2Group.size, hs.hsize 0 hs.hld, Nat.sub_zero]
  have hlens : ∀ x ∈ polies.map (fun x => (groups.getD 0 (dummyGroup F)).fft x),
      x.length = 2 ^ (logd + r) := by
    intro x hx
    rcases List.mem_map.mp hx with ⟨q, _, rfl⟩
    rw [fft_length, hs.hsize 0 hs.hld, Nat.sub_zero]
  show ((polies.map (fun x => (groups.getD 0 (dummyGroup F)).fft x)).flatten).getD
      (idx + k * 2 ^ (logd + r)) 0 = _
  rw [getD_flatten_stride (2 ^ (logd + r)) 0 _ k idx hlens (by simpa using hk) hidx]
  rw [getD_map_lt _ polies [] [] hk]
  rw [Radix2Group.fft, getD_map_range _ 0 (by rw [hsz0]; exact hidx)]

theorem hRV_zero {F : Type} [Field F] {polies : List (List F)}
    {groups : List (Radix2Group F)} {χ : F} {cs : List F} {logd r : Nat}
    (hs : HonestSetup polies groups χ cs logd r) :
    hRV polies groups χ cs logd 0 =
      (List.range (2 ^ (logd + r))).map
        (fun t => evalPoly (batchCoeffs χ polies)
          ((groups.getD 0 (dummyGroup F)).gen ^ t)) := by
  have hsz0 : (groups.getD 0 (dummyGroup F)).size = 2 ^ (logd + r) := by
    rw [Radix2Group.size, hs.hsize 0 hs.hld, Nat.sub_zero]
  have h0 : hRV polies groups χ cs logd 0 =
      batchValues (hProver polies groups logd).interpolation.value
        (groups.getD 0 (dummyGroup F)).size polies.length χ := by
    simp [hRV, Prover.roundValues, hProver]
  rw [h0, batchValues, hsz0]
  apply List.map_congr_left
  intro idx hidx
  have hidxlt : idx < 2 ^ (logd + r) := List.mem_range.mp hidx
  have hext : ∀ (acc : F), ∀ k ∈ List.range polies.length,
      acc * χ + (hProver polies groups logd).interpolation.value.getD
        (idx + k * 2 ^ (logd + r)) 0 =
      acc * χ + evalPoly (polies.getD k [])
        ((groups.getD 0 (dummyGroup F)).gen ^ idx) := by
    intro acc k hk
    rw [hV_getD hs idx k hidxlt (List.mem_range.mp hk)]
  rw [List.foldl_ext _ _ 0 hext]
  have hfold := foldl_range_getD
    (fun (acc : F) (q : List F) =>
      acc * χ + evalPoly q ((groups.getD 0 (dummyGroup F)).gen ^ idx))
    ([] : List F) polies (0 : F)
  rw [hfold, ← evalPoly_batchCoeffs]

theorem hRV_eq {F : Type} [Field F] {polies : List (List F)}
    {groups : List (Radix2Group F)} {χ : F} {cs : List F} {logd r : Nat}
    (hs : HonestSetup polies groups χ cs logd r) :
    ∀ i, i ≤ logd →
      hRV polies groups χ cs logd i =
        (List.range (2 ^ (logd + r - i))).map
          (fun t => evalPoly (foldCoeffsIter cs (batchCoeffs χ polies) i)
            (((groups.getD 0 (dummyGroup F)).gen ^ 2 ^ i) ^ t)) := by
  intro i
  induction i with
  | zero =>
    intro _
    rw [hRV_zero hs]
    simp only [Nat.sub_zero, pow_zero, pow_one]
    rfl
  | succ i ih =>
    intro hi1
    have hi : i < logd := by omega
    have hieq := ih (by omega)
    have hszi : (groups.getD i (dummyGroup F)).size = 2 ^ (logd + r - i) := by
      rw [Radix2Group.size, hs.hsize i hi]
    have hexp : logd + r - i = (logd + r - i - 1) + 1 := by omega
    have hdouble : (2 : Nat) ^ (logd + r - i) = 2 ^ (logd + r - i - 1) * 2 := by
      conv_lhs => rw [hexp]
      rw [pow_succ]
    have hhalf : (groups.getD i (dummyGroup F)).size / 2 = 2 ^ (logd + r - i - 1) := by
      rw [hszi, hdouble]
      exact Nat.mul_div_cancel _ (by norm_num)
    have hstep : hRV polies groups χ cs logd (i + 1) =
        Prover.evaluate_next_domain (hRV polies groups χ cs logd i)
          (groups.getD i (dummyGroup F)) (2 : F)⁻¹ (cs.getD i 0) := by
      simp [hRV, Prover.roundValues]
    rw [hstep, Prover.evaluate_next_domain]
    simp only [hhalf]
    simp only [show logd + r - (i + 1) = logd + r - i - 1 from by omega]
    apply List.map_congr_left
    intro t ht
    have htlt : t < 2 ^ (logd + r - i - 1) := List.mem_range.mp ht
    have htlt2 : t < 2 ^ (logd + r - i) := by omega
    have hnxlt : t + 2 ^ (logd + r - i - 1) < 2 ^ (logd + r - i) := by omega
    have hGi : (groups.getD i (dummyGroup F)).gen =
        (groups.getD 0 (dummyGroup F)).gen ^ 2 ^ i := gen_chain hs i hi
    have hnegi : ((groups.getD 0 (dummyGroup F)).gen ^ 2 ^ i) ^ 2 ^ (logd + r - i - 1) =
        -1 := by
      rw [← hGi]; exact hs.hneg i hi
    have hGne : ((groups.getD 0 (dummyGroup F)).gen ^ 2 ^ i) ≠ 0 := by
      intro h0
      rw [h0, zero_pow (by positivity : (2 : Nat) ^ (logd + r - i - 1) ≠ 0)] at hnegi
      exact one_ne_zero (neg_eq_zero.mp hnegi.symm)
    have hymul : ((groups.getD 0 (dummyGroup F)).gen ^ 2 ^ i) ^ (t + 2 ^ (logd + r - i - 1)) =
        -(((groups.getD 0 (dummyGroup F)).gen ^ 2 ^ i) ^ t) := by
      rw [pow_add, hnegi, mul_neg_one]
    rw [hieq]
    rw [getD_map_range _ 0 htlt2, getD_map_range _ 0 hnxlt]
    rw [hymul, Radix2Group.element_inv_at, hGi]
    have hfid := fold_identity (foldCoeffsIter cs (batchCoeffs χ polies) i) (cs.getD i 0)
      (((groups.getD 0 (dummyGroup F)).gen ^ 2 ^ i) ^ t) (pow_ne_zero t hGne) hs.h2
    rw [hfid]
    rw [show foldCoeffsIter cs (batchCoeffs χ polies) (i + 1) =
      foldCoeffs (cs.getD i 0) (foldCoeffsIter cs (batchCoeffs χ polies) i) from by
      simp [foldCoeffsIter]]
    have hexp2 : (((groups.getD 0 (dummyGroup F)).gen ^ 2 ^ i) ^ t) ^ 2 =
        ((groups.getD 0 (dummyGroup F)).gen ^ 2 ^ (i + 1)) ^ t := by
      rw [← pow_mul, ← pow_mul, ← pow_mul]
      congr 1
      rw [pow_succ]
      ring
    rw [hexp2]

theorem hRV_length {F : Type} [Field F] {polies : List (List F)}
    {groups : List (Radix2Group F)} {χ : F} {cs : List F} {logd r : Nat}
    (hs : HonestSetup polies groups χ cs logd r) (i : Nat) (hi : i ≤ logd) :
    (hRV polies groups χ cs logd i).length = 2 ^ (logd + r - i) := by
  rw [hRV_eq hs i hi]
  simp

theorem batchCoeffs_len {F : Type} [Field F] {polies : List (List F)}
    {groups : List (Radix2Group F)} {χ : F} {cs : List F} {logd r : Nat}
    (hs : HonestSetup polies groups χ cs logd r) :
    (batchCoeffs χ polies).length = 2 ^ logd := by
  apply batchCoeffs_length χ (2 ^ logd) polies _ hs.hlen
  intro h
  rw [h] at hs
  exact absurd hs.hP (by simp)

theorem foldCoeffsIter_len {F : Type} [Field F] {polies : List (List F)}
    {groups : List (Radix2Group F)} {χ : F} {cs : List F} {logd r : Nat}
    (hs : HonestSetup polies groups χ cs logd r) :
    ∀ i, i ≤ logd → (foldCoeffsIter cs (batchCoeffs χ polies) i).length = 2 ^ (logd - i)
  | 0, _ => by
    rw [show foldCoeffsIter cs (batchCoeffs χ polies) 0 = batchCoeffs χ polies from by
      simp [foldCoeffsIter]]
    rw [batchCoeffs_len hs, Nat.sub_zero]
  | i + 1, hi => by
    rw [show foldCoeffsIter cs (batchCoeffs χ polies) (i + 1) =
      foldCoeffs (cs.getD i 0) (foldCoeffsIter cs (batchCoeffs χ polies) i) from by
      simp [foldCoeffsIter]]
    rw [foldCoeffs_length, foldCoeffsIter_len hs i (by omega)]
    rw [show logd - (i + 1) = logd - i - 1 from by omega]
    have h1 : (2 : Nat) ^ (logd - i) = 2 ^ (logd - i - 1) * 2 := by
      conv_lhs => rw [show logd - i = (logd - i - 1) + 1 from by omega]
      rw [pow_succ]
    omega

theorem hRV_last_const {F : Type} [Field F] {polies : List (List F)}
    {groups : List (Radix2Group F)} {χ : F} {cs : List F} {logd r : Nat}
    (hs : HonestSetup polies groups χ cs logd r) (t : Nat) (ht : t < 2 ^ r) :
    (hRV polies groups χ cs logd logd).getD t 0 =
      (hRV polies groups χ cs logd logd).getD 0 0 := by
  have hsub : logd + r - logd = r := by omega
  have hlen1 : (foldCoeffsIter cs (batchCoeffs χ polies) logd).length = 1 := by
    rw [foldCoeffsIter_len hs logd le_rfl]
    simp
  rw [hRV_eq hs logd le_rfl]
  rw [getD_map_range _ 0 (by rw [hsub]; exact ht),
    getD_map_range _ 0 (by rw [hsub]; positivity)]
  rw [evalPoly_length_one _ hlen1, evalPoly_length_one _ hlen1]

theorem hIdx_succ {F : Type} [Field F] {polies : List (List F)}
    {groups : List (Radix2Group F)} {χ : F} {cs : List F} {logd r : Nat}
    (hs : HonestSetup polies groups χ cs logd r) (indices : List Nat) (t : Nat)
    (ht : t < logd) :
    hIdx groups indices (t + 1) =
      sortDedup ((hIdx groups indices t).map (fun v => v % 2 ^ (logd + r - 1 - t))) := by
  show verifierIndexSeq groups indices (t + 1) = _
  rw [verifierIndexSeq]
  congr 2
  rw [Radix2Group.size, hs.hsize t ht, Nat.shiftRight_eq_div_pow, pow_one]
  have h1 : (2 : Nat) ^ (logd + r - t) = 2 ^ (logd + r - 1 - t) * 2 := by
    conv_lhs => rw [show logd + r - t = (logd + r - 1 - t) + 1 from by omega]
    rw [pow_succ]
  rw [h1, Nat.mul_div_cancel _ (by norm_num)]

theorem hIdx_bound {F : Type} [Field F] {polies : List (List F)}
    {groups : List (Radix2Group F)} {χ : F} {cs : List F} {logd r : Nat}
    (hs : HonestSetup polies groups χ cs logd r) (indices : List Nat) (t : Nat)
    (ht : t < logd) :
    ∀ j ∈ hIdx groups indices (t + 1), j < 2 ^ (logd + r - 1 - t) := by
  intro j hj
  rw [hIdx_succ hs indices t ht] at hj
  rcases List.mem_map.mp (mem_sortDedup.mp hj) with ⟨b, _, rfl⟩
  exact Nat.mod_lt _ (by positivity)

theorem hIdx_mem_next {F : Type} [Field F] {polies : List (List F)}
    {groups : List (Radix2Group F)} {χ : F} {cs : List F} {logd r : Nat}
    (hs : HonestSetup polies groups χ cs logd r) (indices : List Nat) (t : Nat)
    (ht : t + 1 < logd) (j : Nat) (hj : j ∈ hIdx groups indices (t + 1)) :
    j % 2 ^ (logd + r - 1 - (t + 1)) ∈ hIdx groups indices (t + 2) := by
  rw [hIdx_succ hs indices (t + 1) ht]
  exact mem_sortDedup.mpr (List.mem_map.mpr ⟨j, hj, rfl⟩)

theorem leave_num_new {F : Type} [Field F] (v : List F) (ls : Nat) :
    (InterpolateValue.new v ls).merkle_tree.leave_num = v.length / ls := by
  simp [InterpolateValue.new, MerkleTreeProver.leave_num]

theorem hLayer_leave_num {F : Type} [Field F] {polies : List (List F)}
    {groups : List (Radix2Group F)} {χ : F} {cs : List F} {logd r : Nat}
    (hs : HonestSetup polies groups χ cs logd r) (t : Nat) (ht : t < logd) :
    (hLayer polies groups χ cs logd t).merkle_tree.leave_num =
      2 ^ (logd + r - 1 - t) := by
  by_cases h0 : t = 0
  · subst h0
    show (hProver polies groups logd).interpolation.merkle_tree.leave_num = _
    rw [show (hProver polies groups logd).interpolation = InterpolateValue.new
      ((polies.map (fun x => (groups.getD 0 (dummyGroup F)).fft x)).flatten)
      (polies.length * 2) from rfl]
    rw [leave_num_new]
    rw [show ((polies.map (fun x => (groups.getD 0 (dummyGroup F)).fft x)).flatten).length =
      (hProver polies groups logd).interpolation.value.length from rfl]
    rw [hV_length hs]
    have hK : polies.length * 2 ^ (logd + r) =
        (polies.length * 2) * 2 ^ (logd + r - 1) := by
      conv_lhs => rw [show logd + r = (logd + r - 1) + 1 from by omega]
      rw [pow_succ]
      ring
    rw [hK, Nat.mul_div_cancel_left _ (by have := hs.hP; positivity), Nat.sub_zero]
  · rw [show hLayer polies groups χ cs logd t =
      InterpolateValue.new (hRV polies groups χ cs logd t) 2 from by simp [hLayer, h0]]
    rw [leave_num_new, hRV_length hs t (by omega)]
    have h1 : (2 : Nat) ^ (logd + r - t) = 2 ^ (logd + r - 1 - t) * 2 := by
      conv_lhs => rw [show logd + r - t = (logd + r - 1 - t) + 1 from by omega]
      rw [pow_succ]
    rw [h1, Nat.mul_div_cancel _ (by norm_num)]

theorem hLayer_leaf_size {F : Type} [Field F] (polies : List (List F))
    (groups : List (Radix2Group F)) (χ : F) (cs : List F) (logd t : Nat) :
    (hLayer polies groups χ cs logd t).leaf_size =
      if t = 0 then polies.length * 2 else 2 := by
  by_cases h0 : t = 0 <;> simp [hLayer, h0, InterpolateValue.new, hProver]

theorem hLayer_value {F : Type} [Field F] (polies : List (List F))
    (groups : List (Radix2Group F)) (χ : F) (cs : List F) (logd t : Nat) :
    (hLayer polies groups χ cs logd t).value =
      if t = 0 then (hProver polies groups logd).interpolation.value
      else hRV polies groups χ cs logd t := by
  by_cases h0 : t = 0 <;> simp [hLayer, h0, InterpolateValue.new]

theorem hLayer_sz_invariant {F : Type} [Field F] {polies : List (List F)}
    {groups : List (Radix2Group F)} {χ : F} {cs : List F} {logd r : Nat}
    (hs : HonestSetup polies groups χ cs logd r) (t : Nat) (ht : t < logd) :
    (hLayer polies groups χ cs logd t).merkle_tree.leave_num *
      (hLayer polies groups χ cs logd t).leaf_size =
      (hLayer polies groups χ cs logd t).value.length := by
  rw [hLayer_leave_num hs t ht, hLayer_leaf_size, hLayer_value]
  by_cases h0 : t = 0
  · subst h0
    rw [if_pos rfl, if_pos rfl, hV_length hs, Nat.sub_zero]
    conv_rhs => rw [show logd + r = (logd + r - 1) + 1 from by omega]
    rw [pow_succ]
    ring
  · rw [if_neg h0, if_neg h0, hRV_length hs t (by omega)]
    conv_rhs => rw [show logd + r - t = (logd + r - 1 - t) + 1 from by omega]
    rw [pow_succ]

theorem query_round {F : Type} [Field F] {polies : List (List F)}
    {groups : List (Radix2Group F)} {χ : F} {cs : List F} {logd r : Nat}
    (hs : HonestSetup polies groups χ cs logd r) (indices : List Nat) (t : Nat)
    (ht : t < logd) :
    (hLayer polies groups χ cs logd t).query (hIdx groups indices (t + 1)) =
      some (hQR polies groups χ cs indices logd t) := by
  have h := query_some_of_lt (hLayer polies groups χ cs logd t)
    (hIdx groups indices (t + 1)) (hLayer_sz_invariant hs t ht)
    (by
      intro j hj
      rw [hLayer_leave_num hs t ht]
      exact hIdx_bound hs indices t ht j hj)
  rw [h]
  rfl

theorem sampleGo_honest {F : Type} [Field F] {polies : List (List F)}
    {groups : List (Radix2Group F)} {χ : F} {cs : List F} {logd r : Nat}
    (hs : HonestSetup polies groups χ cs logd r) (indices : List Nat) :
    ∀ (k i : Nat), i + k = logd →
      (hProver polies groups logd).sampleGo
        ((hProver polies groups logd).commit_phase groups (χ, cs)).1
        (List.range' i k) (hIdx groups indices i) (2 ^ (logd + r - i)) =
        some ((List.range' i k).map (fun t => hQR polies groups χ cs indices logd t)) := by
  intro k
  induction k with
  | zero =>
    intro i _
    rfl
  | succ k ih =>
    intro i hik
    have hi : i < logd := by omega
    have hshift : (2 : Nat) ^ (logd + r - i) >>> 1 = 2 ^ (logd + r - (i + 1)) := by
      rw [Nat.shiftRight_eq_div_pow, pow_one]
      conv_lhs => rw [show logd + r - i = (logd + r - (i + 1)) + 1 from by omega]
      rw [pow_succ]
      exact Nat.mul_div_cancel _ (by norm_num)
    have hred : sortDedup ((hIdx groups indices i).map
        (fun v => v &&& (2 ^ (logd + r - (i + 1)) - 1))) = hIdx groups indices (i + 1) := by
      rw [hIdx_succ hs indices i hi]
      congr 1
      apply List.map_congr_left
      intro a _
      rw [show logd + r - (i + 1) = logd + r - 1 - i from by omega,
        Nat.and_pow_two_sub_one_eq_mod]
    have hlayer : (if i = 0 then (hProver polies groups logd).interpolation
        else ((hProver polies groups logd).commit_phase groups
          (χ, cs)).1.interpolations.getD (i - 1) ⟨[], 0, ⟨[]⟩⟩) =
        hLayer polies groups χ cs logd i := by
      by_cases h0 : i = 0
      · subst h0
        simp [hLayer]
      · rw [if_neg h0]
        rw [show ((hProver polies groups logd).commit_phase groups
          (χ, cs)).1.interpolations =
          (List.range (logd - 1)).map (fun j => InterpolateValue.new
            ((hProver polies groups logd).roundValues groups (χ, cs) (j + 1)) 2) from rfl]
        rw [getD_map_range _ _ (by omega : i - 1 < logd - 1)]
        rw [show i - 1 + 1 = i from by omega]
        simp [hLayer, h0, hRV]
    rw [List.range'_succ]
    rw [Prover.sampleGo]
    simp only [hshift, hred, hlayer]
    rw [query_round hs indices i hi]
    rw [ih (i + 1) (by omega)]
    simp [List.range'_succ]

theorem sample_honest {F : Type} [Field F] {polies : List (List F)}
    {groups : List (Radix2Group F)} {χ : F} {cs : List F} {logd r : Nat}
    (hs : HonestSetup polies groups χ cs logd r) (indices : List Nat) :
    (hProver polies groups logd).sample
      ((hProver polies groups logd).commit_phase groups (χ, cs)).1 indices
      (2 ^ (logd + r)) = some (hQRS polies groups χ cs indices logd) := by
  show (hProver polies groups logd).sampleGo _ (List.range logd) indices (2 ^ (logd + r)) = _
  rw [List.range_eq_range']
  have h := sampleGo_honest hs indices logd 0 (by omega)
  simp only [Nat.sub_zero] at h
  rw [show hIdx groups indices 0 = indices from rfl] at h
  rw [h, hQRS, List.range_eq_range']

theorem forOpt_eq_some {α : Type} (f : α → Option Unit) :
    ∀ l : List α, (∀ a ∈ l, f a = some ()) → forOpt f l = some ()
  | [], _ => rfl
  | a :: l, h => by
    simp [forOpt, h a (List.mem_cons_self a l),
      forOpt_eq_some f l (fun b hb => h b (List.mem_cons_of_mem a hb))]

theorem honestValues_lookup {F : Type} [Field F] (layer : InterpolateValue F)
    (idx : List Nat) (j k : Nat) (hj : j ∈ idx) (hk : k < layer.leaf_size) :
    (honestValues layer idx).lookup (j + k * layer.merkle_tree.leave_num) =
      some (layer.value.getD (j + k * layer.merkle_tree.leave_num) 0) := by
  apply lookup_map_fst (fun K => layer.value.getD K 0)
  · intro p hp
    rcases List.mem_flatten.mp hp with ⟨sub, hsub, hpsub⟩
    rcases List.mem_map.mp hsub with ⟨k2, hk2, rfl⟩
    rcases List.mem_map.mp hpsub with ⟨j2, hj2, rfl⟩
    rfl
  · apply List.mem_map.mpr
    refine ⟨(j + k * layer.merkle_tree.leave_num,
      layer.value.getD (j + k * layer.merkle_tree.leave_num) 0), ?_, rfl⟩
    apply List.mem_flatten.mpr
    exact ⟨idx.map (fun j2 => (j2 + k * layer.merkle_tree.leave_num,
      layer.value.getD (j2 + k * layer.merkle_tree.leave_num) 0)),
      List.mem_map.mpr ⟨k, List.mem_range.mpr hk, rfl⟩,
      List.mem_map.mpr ⟨j, hj, rfl⟩⟩

theorem buildMtVerifiers_getD {F : Type} :
    ∀ (roots : List (List (List F))) (n k : Nat), k < roots.length →
      (buildMtVerifiers n roots).getD k ⟨0, []⟩ = ⟨n / 2 ^ (k + 1), roots.getD k []⟩
  | [], _, k, hk => by simp at hk
  | h :: rest, n, 0, _ => by
    show (⟨n / 2, h⟩ : MerkleTreeVerifier F) = _
    norm_num
  | h :: rest, n, k + 1, hk => by
    show (buildMtVerifiers (n / 2) rest).getD k ⟨0, []⟩ = _
    rw [buildMtVerifiers_getD rest (n / 2) k (by simpa using hk)]
    rw [Nat.div_div_eq_div_mul, List.getD_cons_succ,
      show 2 * 2 ^ (k + 1) = 2 ^ (k + 1 + 1) from (pow_succ' 2 (k + 1)).symm]

theorem honest_merkle_ok {F : Type} [Field F] [DecidableEq F] (value : List F) (lsz : Nat)
    (idx : List Nat) (pths : List Nat)
    (hidx : ∀ j ∈ idx, j < (InterpolateValue.new value lsz).merkle_tree.leave_num) :
    QueryResult.verify_merkle_tree
      ⟨pths, honestValues (InterpolateValue.new value lsz) idx⟩ idx lsz
      ⟨(InterpolateValue.new value lsz).merkle_tree.leave_num,
        (InterpolateValue.new value lsz).merkle_tree.leaves⟩ = some true := by
  have hm2 : (InterpolateValue.new value lsz).merkle_tree.leave_num = value.length / lsz :=
    leave_num_new value lsz
  set m := (InterpolateValue.new value lsz).merkle_tree.leave_num with hm
  have hinner : ∀ x ∈ idx, mapOpt (fun j =>
      (honestValues (InterpolateValue.new value lsz) idx).lookup (x + j * m))
      (List.range lsz) =
      some ((List.range lsz).map (fun j => value.getD (x + j * m) 0)) := by
    intro x hx
    apply mapOpt_eq_map
    intro j hj
    have hjlt : j < (InterpolateValue.new value lsz).leaf_size := by
      simpa [InterpolateValue.new] using List.mem_range.mp hj
    exact honestValues_lookup (InterpolateValue.new value lsz) idx x j hx hjlt
  have houter := mapOpt_eq_map _ _ idx hinner
  have hver : MerkleTreeVerifier.verify
      (⟨m, (InterpolateValue.new value lsz).merkle_tree.leaves⟩ : MerkleTreeVerifier F)
      pths idx
      (idx.map (fun x => (List.range lsz).map (fun j => value.getD (x + j * m) 0))) =
      true := by
    unfold MerkleTreeVerifier.verify
    rw [Bool.and_eq_true]
    constructor
    · simp
    · rw [List.all_eq_true]
      intro p hp
      have hzip : idx.zip (idx.map (fun x => (List.range lsz).map
          (fun j => value.getD (x + j * m) 0))) =
          idx.map (fun x => (x, (List.range lsz).map
            (fun j => value.getD (x + j * m) 0))) := by
        simpa using List.zip_map' id
          (fun x => (List.range lsz).map (fun j => value.getD (x + j * m) 0)) idx
      rw [hzip] at hp
      rcases List.mem_map.mp hp with ⟨x, hxmem, rfl⟩
      simp only [decide_eq_true_eq]
      have hxlt : x < m := hidx x hxmem
      show ((List.range (value.length / lsz)).map (fun i => (List.range lsz).map
        (fun j => value.getD (value.length / lsz * j + i) 0))).get? x =
        some ((List.range lsz).map (fun j => value.getD (x + j * m) 0))
      have hroot : ((List.range (value.length / lsz)).map (fun i => (List.range lsz).map
          (fun j => value.getD (value.length / lsz * j + i) 0))).get? x =
          some ((List.range lsz).map (fun j => value.getD (value.length / lsz * j + x) 0)) := by
        rw [List.get?_map, List.get?_range (by rw [← hm2]; exact hxlt)]
        rfl
      rw [hroot]
      congr 1
      apply List.map_congr_left
      intro j _
      congr 1
      rw [hm2]
      ring
  unfold QueryResult.verify_merkle_tree
  simp only [Option.bind_eq_bind]
  rw [houter]
  simp only [Option.some_bind]
  rw [hver]
  rfl

theorem two_mul_inv {F : Type} [Field F] (h2 : (2 : F) ≠ 0) (a : F) :
    2 * (a * (2 : F)⁻¹) = a := by
  field_simp

theorem merkle_round_ok {F : Type} [Field F] [DecidableEq F] {polies : List (List F)}
    {groups : List (Radix2Group F)} {χ : F} {cs : List F} {logd r : Nat}
    (hs : HonestSetup polies groups χ cs logd r) (indices : List Nat) (t : Nat)
    (ht : t < logd) :
    (hQR polies groups χ cs indices logd t).verify_merkle_tree
      (hIdx groups indices (t + 1)) (hLayer polies groups χ cs logd t).leaf_size
      ⟨(hLayer polies groups χ cs logd t).merkle_tree.leave_num,
        (hLayer polies groups χ cs logd t).merkle_tree.leaves⟩ = some true := by
  have hb : ∀ j ∈ hIdx groups indices (t + 1),
      j < (hLayer polies groups χ cs logd t).merkle_tree.leave_num := by
    intro j hj
    rw [hLayer_leave_num hs t ht]
    exact hIdx_bound hs indices t ht j hj
  by_cases h0 : t = 0
  · subst h0
    have hl : hLayer polies groups χ cs logd 0 = InterpolateValue.new
        ((polies.map (fun x => (groups.getD 0 (dummyGroup F)).fft x)).flatten)
        (polies.length * 2) := by
      simp [hLayer, hProver]
    rw [hl] at hb
    have h := honest_merkle_ok
      ((polies.map (fun x => (groups.getD 0 (dummyGroup F)).fft x)).flatten)
      (polies.length * 2) (hIdx groups indices 1) [] hb
    show (⟨[], honestValues (hLayer polies groups χ cs logd 0)
      (hIdx groups indices 1)⟩ : QueryResult F).verify_merkle_tree
      (hIdx groups indices 1) (hLayer polies groups χ cs logd 0).leaf_size
      ⟨(hLayer polies groups χ cs logd 0).merkle_tree.leave_num,
        (hLayer polies groups χ cs logd 0).merkle_tree.leaves⟩ = some true
    rw [hl]
    exact h
  · have hl : hLayer polies groups χ cs logd t = InterpolateValue.new
        (hRV polies groups χ cs logd t) 2 := by
      simp [hLayer, h0]
    rw [hl] at hb
    have h := honest_merkle_ok (hRV polies groups χ cs logd t) 2
      (hIdx groups indices (t + 1)) [] hb
    show (⟨[], honestValues (hLayer polies groups χ cs logd t)
      (hIdx groups indices (t + 1))⟩ : QueryResult F).verify_merkle_tree
      (hIdx groups indices (t + 1)) (hLayer polies groups χ cs logd t).leaf_size
      ⟨(hLayer polies groups χ cs logd t).merkle_tree.leave_num,
        (hLayer polies groups χ cs logd t).merkle_tree.leaves⟩ = some true
    rw [hl]
    exact h

theorem hQR_lookup_self {F : Type} [Field F] {polies : List (List F)}
    {groups : List (Radix2Group F)} {χ : F} {cs : List F} {logd r : Nat}
    (hs : HonestSetup polies groups χ cs logd r) (indices : List Nat) (t : Nat)
    (ht : t < logd) (j k : Nat) (hj : j ∈ hIdx groups indices (t + 1))
    (hk : k < (hLayer polies groups χ cs logd t).leaf_size) :
    (hQR polies groups χ cs indices logd t).values.lookup
      (j + k * 2 ^ (logd + r - 1 - t)) =
      some ((hLayer polies groups χ cs logd t).value.getD
        (j + k * 2 ^ (logd + r - 1 - t)) 0) := by
  have h := honestValues_lookup (hLayer polies groups χ cs logd t)
    (hIdx groups indices (t + 1)) j k hj hk
  rw [hLayer_leave_num hs t ht] at h
  exact h

theorem hQR_lookup_next {F : Type} [Field F] {polies : List (List F)}
    {groups : List (Radix2Group F)} {χ : F} {cs : List F} {logd r : Nat}
    (hs : HonestSetup polies groups χ cs logd r) (indices : List Nat) (i : Nat)
    (hi1 : i + 1 < logd) (j : Nat) (hj : j ∈ hIdx groups indices (i + 1)) :
    (hQR polies groups χ cs indices logd (i + 1)).values.lookup j =
      some ((hRV polies groups χ cs logd (i + 1)).getD j 0) := by
  have hm : (2 : Nat) ^ (logd + r - 1 - i) = 2 ^ (logd + r - 1 - (i + 1)) * 2 := by
    conv_lhs => rw [show logd + r - 1 - i = (logd + r - 1 - (i + 1)) + 1 from by omega]
    rw [pow_succ]
  have hjlt : j < 2 ^ (logd + r - 1 - i) := hIdx_bound hs indices i (by omega) j hj
  have hlval : (hLayer polies groups χ cs logd (i + 1)).value =
      hRV polies groups χ cs logd (i + 1) := by
    rw [hLayer_value]
    simp
  have hls2 : (hLayer polies groups χ cs logd (i + 1)).leaf_size = 2 := by
    rw [hLayer_leaf_size]
    simp
  by_cases hcase : j < 2 ^ (logd + r - 1 - (i + 1))
  · have hjmem : j ∈ hIdx groups indices (i + 2) := by
      have h := hIdx_mem_next hs indices i hi1 j hj
      rwa [Nat.mod_eq_of_lt hcase] at h
    have h := hQR_lookup_self hs indices (i + 1) hi1 j 0 hjmem (by rw [hls2]; norm_num)
    simp only [Nat.zero_mul, Nat.add_zero] at h
    rw [h, hlval]
  · have hjmod : j % 2 ^ (logd + r - 1 - (i + 1)) = j - 2 ^ (logd + r - 1 - (i + 1)) := by
      rw [Nat.mod_eq_sub_mod (le_of_not_lt hcase), Nat.mod_eq_of_lt (by omega)]
    have hjmem : j - 2 ^ (logd + r - 1 - (i + 1)) ∈ hIdx groups indices (i + 2) := by
      have h := hIdx_mem_next hs indices i hi1 j hj
      rwa [hjmod] at h
    have h := hQR_lookup_self hs indices (i + 1) hi1
      (j - 2 ^ (logd + r - 1 - (i + 1))) 1 hjmem (by rw [hls2]; norm_num)
    rw [show j - 2 ^ (logd + r - 1 - (i + 1)) + 1 * 2 ^ (logd + r - 1 - (i + 1)) = j from by
      omega] at h
    rw [h, hlval]

theorem hRV_succ_getD {F : Type} [Field F] {polies : List (List F)}
    {groups : List (Radix2Group F)} {χ : F} {cs : List F} {logd r : Nat}
    (hs : HonestSetup polies groups χ cs logd r) (i : Nat) (hi : i < logd) (j : Nat)
    (hj : j < 2 ^ (logd + r - 1 - i)) :
    (hRV polies groups χ cs logd (i + 1)).getD j 0 =
      (let v := hRV polies groups χ cs logd i
       let x := v.getD j 0
       let nx := v.getD (j + 2 ^ (logd + r - 1 - i)) 0
       let sum := x + nx
       (sum + cs.getD i 0 *
         ((x - nx) * (groups.getD i (dummyGroup F)).element_inv_at j - sum)) *
         (2 : F)⁻¹) := by
  have hszi : (groups.getD i (dummyGroup F)).size = 2 ^ (logd + r - i) := by
    rw [Radix2Group.size, hs.hsize i hi]
  have hhalf : (groups.getD i (dummyGroup F)).size / 2 = 2 ^ (logd + r - 1 - i) := by
    rw [hszi]
    conv_lhs => rw [show logd + r - i = (logd + r - 1 - i) + 1 from by omega]
    rw [pow_succ]
    exact Nat.mul_div_cancel _ (by norm_num)
  have hstep : hRV polies groups χ cs logd (i + 1) =
      Prover.evaluate_next_domain (hRV polies groups χ cs logd i)
        (groups.getD i (dummyGroup F)) (2 : F)⁻¹ (cs.getD i 0) := by
    simp [hRV, Prover.roundValues]
  rw [hstep, Prover.evaluate_next_domain]
  simp only [hhalf]
  rw [getD_map_range _ 0 hj]

theorem computeNewV_honest {F : Type} [Field F] [DecidableEq F] {polies : List (List F)}
    {groups : List (Radix2Group F)} {χ : F} {cs : List F} {logd r : Nat}
    (hs : HonestSetup polies groups χ cs logd r) (indices : List Nat) (i : Nat)
    (hi : i < logd) (j : Nat) (hj : j ∈ hIdx groups indices (i + 1)) :
    (Verifier.new (hProver polies groups logd).commit polies.length
      (2 ^ (logd + r - 1))).computeNewV groups (χ, cs)
      (hQRS polies groups χ cs indices logd) i j =
      some (2 * (hRV polies groups χ cs logd (i + 1)).getD j 0) := by
  have hszi : (groups.getD i (dummyGroup F)).size = 2 ^ (logd + r - i) := by
    rw [Radix2Group.size, hs.hsize i hi]
  have hhalf : (groups.getD i (dummyGroup F)).size / 2 = 2 ^ (logd + r - 1 - i) := by
    rw [hszi]
    conv_lhs => rw [show logd + r - i = (logd + r - 1 - i) + 1 from by omega]
    rw [pow_succ]
    exact Nat.mul_div_cancel _ (by norm_num)
  have hqrs_i : (hQRS polies groups χ cs indices logd).getD i ⟨[], []⟩ =
      hQR polies groups χ cs indices logd i := by
    rw [hQRS, getD_map_range _ _ hi]
  have hjlt : j < 2 ^ (logd + r - 1 - i) := hIdx_bound hs indices i hi j hj
  rw [hRV_succ_getD hs i hi j hjlt]
  by_cases h0 : i = 0
  · subst h0
    have hlval : (hLayer polies groups χ cs logd 0).value =
        (hProver polies groups logd).interpolation.value := by
      rw [hLayer_value]
      simp
    have hsz0 : (groups.getD 0 (dummyGroup F)).size = 2 ^ (logd + r) := by
      rw [hszi, Nat.sub_zero]
    have hbig : (2 : Nat) ^ (logd + r) = 2 ^ (logd + r - 1) * 2 := by
      conv_lhs => rw [show logd + r = (logd + r - 1) + 1 from by omega]
      rw [pow_succ]
    have hls0 : (hLayer polies groups χ cs logd 0).leaf_size = polies.length * 2 := by
      rw [hLayer_leaf_size]
      simp
    have hmap : mapOpt (fun k => do
        let x ← ((hQRS polies groups χ cs indices logd).getD 0 ⟨[], []⟩).values.lookup
          (j + k * (groups.getD 0 (dummyGroup F)).size)
        let nx ← ((hQRS polies groups χ cs indices logd).getD 0 ⟨[], []⟩).values.lookup
          (j + k * (groups.getD 0 (dummyGroup F)).size +
            (groups.getD 0 (dummyGroup F)).size / 2)
        pure (x, nx)) (List.range polies.length) =
        some ((List.range polies.length).map (fun k =>
          ((hLayer polies groups χ cs logd 0).value.getD
            (j + k * (groups.getD 0 (dummyGroup F)).size) 0,
           (hLayer polies groups χ cs logd 0).value.getD
            (j + k * (groups.getD 0 (dummyGroup F)).size +
              (groups.getD 0 (dummyGroup F)).size / 2) 0))) := by
      apply mapOpt_eq_map
      intro k hk
      have hklt : k < polies.length := List.mem_range.mp hk
      have hkey1 : j + k * (groups.getD 0 (dummyGroup F)).size =
          j + (2 * k) * 2 ^ (logd + r - 1 - 0) := by
        rw [Nat.sub_zero, hsz0, hbig]
        ring
      have hkey2 : j + k * (groups.getD 0 (dummyGroup F)).size +
          (groups.getD 0 (dummyGroup F)).size / 2 =
          j + (2 * k + 1) * 2 ^ (logd + r - 1 - 0) := by
        rw [Nat.sub_zero, hsz0, hbig, Nat.mul_div_cancel _ (by norm_num : 0 < 2)]
        ring
      have hl1 := hQR_lookup_self hs indices 0 hi j (2 * k) hj
        (by rw [hls0]; omega)
      have hl2 := hQR_lookup_self hs indices 0 hi j (2 * k + 1) hj
        (by rw [hls0]; omega)
      rw [hqrs_i, hkey2, hkey1, hl1, hl2]
      rfl
    rw [Verifier.computeNewV, if_pos rfl]
    rw [show (Verifier.new (hProver polies groups logd).commit polies.length
      (2 ^ (logd + r - 1))).poly_num = polies.length from rfl]
    rw [hmap, Option.map_some']
    congr 1
    rw [List.foldl_map]
    have hlin := foldl_horner_foldExpr (cs.getD 0 0)
      ((groups.getD 0 (dummyGroup F)).element_inv_at j) χ
      ((List.range polies.length).map (fun k =>
        ((hLayer polies groups χ cs logd 0).value.getD
          (j + k * (groups.getD 0 (dummyGroup F)).size) 0,
         (hLayer polies groups χ cs logd 0).value.getD
          (j + k * (groups.getD 0 (dummyGroup F)).size +
            (groups.getD 0 (dummyGroup F)).size / 2) 0))) 0 0
    rw [foldExpr_zero] at hlin
    rw [List.foldl_map] at hlin
    simp only [foldExpr] at hlin
    rw [hlin]
    have hjsz : j < (groups.getD 0 (dummyGroup F)).size := by
      rw [hsz0]
      have : (2:Nat) ^ (logd + r - 1 - 0) ≤ 2 ^ (logd + r) :=
        Nat.pow_le_pow_right (by norm_num) (by omega)
      omega
    have hjsz2 : j + (groups.getD 0 (dummyGroup F)).size / 2 <
        (groups.getD 0 (dummyGroup F)).size := by
      rw [hhalf, hsz0, Nat.sub_zero]
      rw [Nat.sub_zero] at hjlt
      omega
    have hbv1 : (List.range polies.length).foldl (fun acc k =>
        acc * χ + (hLayer polies groups χ cs logd 0).value.getD
          (j + k * (groups.getD 0 (dummyGroup F)).size) 0) 0 =
        (hRV polies groups χ cs logd 0).getD j 0 := by
      rw [show hRV polies groups χ cs logd 0 =
        batchValues (hProver polies groups logd).interpolation.value
          (groups.getD 0 (dummyGroup F)).size polies.length χ from by
        simp [hRV, Prover.roundValues, hProver]]
      rw [batchValues, getD_map_range _ 0 hjsz, hlval]
    have hbv2 : (List.range polies.length).foldl (fun acc k =>
        acc * χ + (hLayer polies groups χ cs logd 0).value.getD
          (j + k * (groups.getD 0 (dummyGroup F)).size +
            (groups.getD 0 (dummyGroup F)).size / 2) 0) 0 =
        (hRV polies groups χ cs logd 0).getD
          (j + 2 ^ (logd + r - 1 - 0)) 0 := by
      rw [show hRV polies groups χ cs logd 0 =
        batchValues (hProver polies groups logd).interpolation.value
          (groups.getD 0 (dummyGroup F)).size polies.length χ from by
        simp [hRV, Prover.roundValues, hProver]]
      rw [batchValues, getD_map_range _ 0 (by rw [← hhalf]; exact hjsz2), hlval]
      apply List.foldl_ext
      intro acc k _
      congr 2
      rw [← hhalf]
      omega
    rw [List.foldl_map, List.foldl_map]
    simp only []
    rw [hbv1, hbv2]
    rw [two_mul_inv hs.h2]
  · rw [Verifier.computeNewV, if_neg h0]
    have hlval : (hLayer polies groups χ cs logd i).value =
        hRV polies groups χ cs logd i := by
      rw [hLayer_value]
      simp [h0]
    have hlsi : (hLayer polies groups χ cs logd i).leaf_size = 2 := by
      rw [hLayer_leaf_size]
      simp [h0]
    have hl0 := hQR_lookup_self hs indices i hi j 0 hj (by rw [hlsi]; norm_num)
    simp only [Nat.zero_mul, Nat.add_zero] at hl0
    have hl1 := hQR_lookup_self hs indices i hi j 1 hj (by rw [hlsi]; norm_num)
    rw [one_mul] at hl1
    rw [hqrs_i]
    rw [show (groups.getD i (dummyGroup F)).size / 2 = 2 ^ (logd + r - 1 - i) from hhalf]
    rw [hl0, hl1, hlval]
    show some _ = some _
    congr 1
    rw [two_mul_inv hs.h2]

theorem verifyGo_honest {F : Type} [Field F] [DecidableEq F] {polies : List (List F)}
    {groups : List (Radix2Group F)} {χ : F} {cs : List F} {logd r : Nat}
    (hs : HonestSetup polies groups χ cs logd r) (indices : List Nat) :
    ∀ (k i : Nat), i + k = logd →
      (Verifier.new (hProver polies groups logd).commit polies.length
        (2 ^ (logd + r - 1))).verifyGo groups (χ, cs)
        ((hProver polies groups logd).commit_phase groups (χ, cs)).2
        (hQRS polies groups χ cs indices logd)
        (buildMtVerifiers (2 ^ (logd + r - 1))
          ((hProver polies groups logd).commit_phase groups (χ, cs)).2.merkle_roots)
        logd (List.range' i k) (hIdx groups indices i) = some () := by
  intro k
  induction k with
  | zero =>
    intro i _
    rfl
  | succ k ih =>
    intro i hik
    have hi : i < logd := by omega
    have hqrs_i : (hQRS polies groups χ cs indices logd).getD i ⟨[], []⟩ =
        hQR polies groups χ cs indices logd i := by
      rw [hQRS, getD_map_range _ _ hi]
    have hred : sortDedup ((hIdx groups indices i).map
        (fun x => x % ((groups.getD i (dummyGroup F)).size >>> 1))) =
        hIdx groups indices (i + 1) := rfl
    have hmv : (if i = 0 then (Verifier.new (hProver polies groups logd).commit
          polies.length (2 ^ (logd + r - 1))).mt_verifier
        else (buildMtVerifiers (2 ^ (logd + r - 1))
          ((hProver polies groups logd).commit_phase groups
            (χ, cs)).2.merkle_roots).getD (i - 1) ⟨0, []⟩) =
        ⟨(hLayer polies groups χ cs logd i).merkle_tree.leave_num,
          (hLayer polies groups χ cs logd i).merkle_tree.leaves⟩ := by
      by_cases h0 : i = 0
      · subst h0
        rw [if_pos rfl]
        have h1 : (hLayer polies groups χ cs logd 0).merkle_tree.leave_num =
            2 ^ (logd + r - 1) := by
          rw [hLayer_leave_num hs 0 hi, Nat.sub_zero]
        rw [← h1]
        rfl
      · rw [if_neg h0]
        have hlen_roots : (((hProver polies groups logd).commit_phase groups
            (χ, cs)).2.merkle_roots).length = logd - 1 := by
          simp [Prover.commit_phase, hProver]
        rw [buildMtVerifiers_getD _ _ (i - 1) (by rw [hlen_roots]; omega)]
        have h1 : 2 ^ (logd + r - 1) / 2 ^ (i - 1 + 1) =
            (hLayer polies groups χ cs logd i).merkle_tree.leave_num := by
          rw [show i - 1 + 1 = i from by omega,
            Nat.pow_div (x := 2) (m := logd + r - 1) (n := i) (by omega) (by norm_num),
            hLayer_leave_num hs i hi]
        have h2 : (((hProver polies groups logd).commit_phase groups
            (χ, cs)).2.merkle_roots).getD (i - 1) [] =
            (hLayer polies groups χ cs logd i).merkle_tree.leaves := by
          rw [show ((hProver polies groups logd).commit_phase groups
            (χ, cs)).2.merkle_roots =
            ((List.range (logd - 1)).map (fun t => InterpolateValue.new
              ((hProver polies groups logd).roundValues groups (χ, cs) (t + 1)) 2)).map
              (fun x => x.commit) from rfl]
          rw [List.map_map]
          rw [getD_map_range _ _ (by omega : i - 1 < logd - 1)]
          simp only [Function.comp_apply]
          rw [show i - 1 + 1 = i from by omega]
          rw [show hLayer polies groups χ cs logd i =
            InterpolateValue.new (hRV polies groups χ cs logd i) 2 from by
            simp [hLayer, h0]]
          rfl
        rw [h1, h2]
    have hls : (if i = 0 then (Verifier.new (hProver polies groups logd).commit
        polies.length (2 ^ (logd + r - 1))).poly_num * 2 else 2) =
        (hLayer polies groups χ cs logd i).leaf_size := by
      rw [hLayer_leaf_size]
      by_cases h0 : i = 0 <;> simp [h0, Verifier.new]
    have hfor : ∀ j ∈ hIdx groups indices (i + 1),
        (((Verifier.new (hProver polies groups logd).commit polies.length
            (2 ^ (logd + r - 1))).computeNewV groups (χ, cs)
            (hQRS polies groups χ cs indices logd) i j).bind
          (fun new_v =>
            if i < logd - 1 then
              (List.lookup j ((hQRS polies groups χ cs indices logd).getD (i + 1)
                ⟨[], []⟩).values).bind
                (fun q => if new_v = 2 * q then some () else none)
            else
              if new_v = 2 * ((hProver polies groups logd).commit_phase groups
                (χ, cs)).2.final_value then some () else none) : Option Unit) = some () := by
      intro j hj
      rw [computeNewV_honest hs indices i hi j hj]
      simp only [Option.some_bind]
      by_cases hlast : i < logd - 1
      · rw [if_pos hlast]
        have hq : (hQRS polies groups χ cs indices logd).getD (i + 1) ⟨[], []⟩ =
            hQR polies groups χ cs indices logd (i + 1) := by
          rw [hQRS, getD_map_range _ _ (by omega)]
        rw [hq, hQR_lookup_next hs indices i (by omega) j hj]
        simp
      · rw [if_neg hlast]
        have hi1 : i + 1 = logd := by omega
        have hjr : j < 2 ^ r := by
          have h := hIdx_bound hs indices i hi j hj
          rwa [show logd + r - 1 - i = r from by omega] at h
        have hfin : ((hProver polies groups logd).commit_phase groups
            (χ, cs)).2.final_value =
            (hRV polies groups χ cs logd logd).getD 0 0 := rfl
        rw [hfin, hi1, hRV_last_const hs j hjr]
        simp
    rw [List.range'_succ, Verifier.verifyGo]
    simp only [hred, hqrs_i, hmv, hls]
    rw [merkle_round_ok hs indices i hi]
    simp only [Option.bind_eq_bind, Option.some_bind]
    rw [forOpt_eq_some _ _ hfor]
    simp only [Option.some_bind]
    exact ih (i + 1) (by omega)

/-- C1 (completeness): for every nonempty list of equal power-of-two-length
polynomials, every matching sequence of halving power-of-two domains,
every batch challenge, every list of `logd` fold challenges and every list
of sampled indices, the honest prover is built by `Prover::new`, its
`sample` on the commit-phase state succeeds and produces the honest
openings, and `Verifier.verify` — built from the prover's root, the
polynomial count and the base leaf count — accepts those artifacts: every
per-round Merkle check and every fold-consistency comparison succeeds
(the verifier returns normally, never hitting a failing assertion). -/
theorem c1_completeness {F : Type} [Field F] [DecidableEq F] (polies : List (List F))
    (groups : List (Radix2Group F)) (χ : F) (cs : List F) (indices : List Nat)
    (logd r : Nat) (hs : HonestSetup polies groups χ cs logd r) :
    Prover.new polies (groups.getD 0 (dummyGroup F)) = some (hProver polies groups logd) ∧
      (hProver polies groups logd).sample
        ((hProver polies groups logd).commit_phase groups (χ, cs)).1 indices
        (2 ^ (logd + r)) = some (hQRS polies groups χ cs indices logd) ∧
      (Verifier.new (hProver polies groups logd).commit polies.length
        (2 ^ (logd + r - 1))).verify groups (χ, cs) indices
        ((hProver polies groups logd).commit_phase groups (χ, cs)).2
        (hQRS polies groups χ cs indices logd) = some () := by
  refine ⟨prover_new_honest hs, sample_honest hs indices, ?_⟩
  show (Verifier.new (hProver polies groups logd).commit polies.length
    (2 ^ (logd + r - 1))).verifyGo groups (χ, cs)
    ((hProver polies groups logd).commit_phase groups (χ, cs)).2
    (hQRS polies groups χ cs indices logd)
    (buildMtVerifiers (2 ^ (logd + r - 1))
      ((hProver polies groups logd).commit_phase groups (χ, cs)).2.merkle_roots)
    cs.length (List.range cs.length) indices = some ()
  rw [hs.hcs, List.range_eq_range']
  exact verifyGo_honest hs indices logd 0 (by omega)

/-- C1 witness: a concrete honest run over `ZMod 17` (one polynomial of
length 2, one fold round, base domain of size 4 generated by 13) is built,
sampled and accepted. -/
theorem c1_completeness_witness :
    Prover.new (F := ZMod 17) [[1, 2]] ([⟨2, 13⟩].getD 0 (dummyGroup (ZMod 17))) =
        some (hProver [[1, 2]] [⟨2, 13⟩] 1) ∧
      (hProver (F := ZMod 17) [[1, 2]] [⟨2, 13⟩] 1).sample
        ((hProver (F := ZMod 17) [[1, 2]] [⟨2, 13⟩] 1).commit_phase [⟨2, 13⟩]
          (3, [5])).1 [5, 2, 9] (2 ^ (1 + 1)) =
        some (hQRS [[1, 2]] [⟨2, 13⟩] 3 [5] [5, 2, 9] 1) ∧
      (Verifier.new (hProver (F := ZMod 17) [[1, 2]] [⟨2, 13⟩] 1).commit 1
        (2 ^ (1 + 1 - 1))).verify [⟨2, 13⟩] (3, [5]) [5, 2, 9]
        ((hProver (F := ZMod 17) [[1, 2]] [⟨2, 13⟩] 1).commit_phase [⟨2, 13⟩]
          (3, [5])).2
        (hQRS [[1, 2]] [⟨2, 13⟩] 3 [5] [5, 2, 9] 1) = some () :=
  c1_completeness [[1, 2]] [⟨2, 13⟩] 3 [5] [5, 2, 9] 1 1
    ⟨by decide, by decide, by decide, by decide, by decide, by decide,
      fun t ht => absurd ht (by omega), by decide, by decide⟩

/-- C5 (comparison scale and doubling invariant): on an honest run, for
every round `i < logDegree - 1` and every surviving reduced index `j`, the
verifier's recomputed fold value equals `2 *` the value opened at `j` in
round `i+1`'s `QueryResult`; and on the last round, for every surviving
index, it equals exactly `2 *` the committed final value. -/
theorem c5_doubling_invariant {F : Type} [Field F] [DecidableEq F]
    (polies : List (List F)) (groups : List (Radix2Group F)) (χ : F) (cs : List F)
    (indices : List Nat) (logd r : Nat) (hs : HonestSetup polies groups χ cs logd r) :
    (∀ i, i < logd - 1 → ∀ j ∈ hIdx groups indices (i + 1),
      ∃ q, ((hQRS polies groups χ cs indices logd).getD (i + 1)
          ⟨[], []⟩).values.lookup j = some q ∧
        (Verifier.new (hProver polies groups logd).commit polies.length
          (2 ^ (logd + r - 1))).computeNewV groups (χ, cs)
          (hQRS polies groups χ cs indices logd) i j = some (2 * q)) ∧
    (∀ j ∈ hIdx groups indices logd,
      (Verifier.new (hProver polies groups logd).commit polies.length
        (2 ^ (logd + r - 1))).computeNewV groups (χ, cs)
        (hQRS polies groups χ cs indices logd) (logd - 1) j =
        some (2 * ((hProver polies groups logd).commit_phase groups
          (χ, cs)).2.final_value)) := by
  constructor
  · intro i hilt j hj
    refine ⟨(hRV polies groups χ cs logd (i + 1)).getD j 0, ?_, ?_⟩
    · rw [show (hQRS polies groups χ cs indices logd).getD (i + 1) ⟨[], []⟩ =
        hQR polies groups χ cs indices logd (i + 1) from by
        rw [hQRS, getD_map_range _ _ (by omega)]]
      exact hQR_lookup_next hs indices i (by omega) j hj
    · exact computeNewV_honest hs indices i (by omega) j hj
  · intro j hj
    have hl1 : logd - 1 + 1 = logd := by
      have := hs.hld
      omega
    have hj' : j ∈ hIdx groups indices (logd - 1 + 1) := by
      rw [hl1]
      exact hj
    have h := computeNewV_honest hs indices (logd - 1) (by have := hs.hld; omega) j hj'
    rw [hl1] at h
    have hjr : j < 2 ^ r := by
      have hb := hIdx_bound hs indices (logd - 1) (by have := hs.hld; omega) j hj'
      rwa [show logd + r - 1 - (logd - 1) = r from by have := hs.hld; omega] at hb
    rw [h, hRV_last_const hs j hjr]
    rfl

/-- C5 witness: the two-round honest run over `ZMod 17` with one length-4
polynomial; both the intermediate doubling comparison and the final
doubling invariant hold at the sampled indices. -/
theorem c5_doubling_invariant_witness :
    (∀ i, i < 2 - 1 → ∀ j ∈ hIdx (F := ZMod 17) [⟨3, 9⟩, ⟨2, 13⟩] [6, 3] (i + 1),
      ∃ q, ((hQRS [[1, 2, 3, 4]] [⟨3, 9⟩, ⟨2, 13⟩] 3 [5, 7] [6, 3] 2).getD (i + 1)
          ⟨[], []⟩).values.lookup j = some q ∧
        (Verifier.new (hProver (F := ZMod 17) [[1, 2, 3, 4]] [⟨3, 9⟩, ⟨2, 13⟩] 2).commit 1
          (2 ^ (2 + 1 - 1))).computeNewV [⟨3, 9⟩, ⟨2, 13⟩] (3, [5, 7])
          (hQRS [[1, 2, 3, 4]] [⟨3, 9⟩, ⟨2, 13⟩] 3 [5, 7] [6, 3] 2) i j = some (2 * q)) ∧
    (∀ j ∈ hIdx (F := ZMod 17) [⟨3, 9⟩, ⟨2, 13⟩] [6, 3] 2,
      (Verifier.new (hProver (F := ZMod 17) [[1, 2, 3, 4]] [⟨3, 9⟩, ⟨2, 13⟩] 2).commit 1
        (2 ^ (2 + 1 - 1))).computeNewV [⟨3, 9⟩, ⟨2, 13⟩] (3, [5, 7])
        (hQRS [[1, 2, 3, 4]] [⟨3, 9⟩, ⟨2, 13⟩] 3 [5, 7] [6, 3] 2) (2 - 1) j =
        some (2 * ((hProver (F := ZMod 17) [[1, 2, 3, 4]] [⟨3, 9⟩, ⟨2, 13⟩] 2).commit_phase
          [⟨3, 9⟩, ⟨2, 13⟩] (3, [5, 7])).2.final_value)) :=
  c5_doubling_invariant [[1, 2, 3, 4]] [⟨3, 9⟩, ⟨2, 13⟩] 3 [5, 7] [6, 3] 2 1
    ⟨by decide, by decide, by decide, by decide, by decide, by decide,
      by
        intro t ht
        have h0 : t = 0 := by omega
        subst h0
        decide,
      by decide, by decide⟩
